import Mathlib

/-!
Verification development for the rom indexing and transactional-write engine
(`rom/__init__.py`).

The backing store is modelled as four typed key spaces (hashes, plain sets,
sorted sets, and the per-namespace descriptor hash `<ns>::`).  Values that the
source stores JSON-encoded (index descriptors, the `:mappings` id lists written
by `Model.save`) are modelled in decoded form, since every access in the source
decodes or encodes them at the boundary.  Scores are modelled as `Int`: the
engine only writes and removes scored members, never does arithmetic on them.

Collaborator code that lives outside the core source file (`rom.util`,
`rom.index`, `rom.columns`) is either abstracted into per-column encode/decode
functions supplied by the schema, or modelled from the spec in definitions
whose doc comments say so.
-/

/-! ## Association-list helpers (Python dict / set accumulators) -/

/-- First-match lookup in an association list, as Python dict lookup. -/
def lookupA {α : Type} [DecidableEq α] {β : Type} (l : List (α × β)) (k : α) : Option β :=
  match l with
  | [] => none
  | (a, b) :: t => if a = k then some b else lookupA t k

/-- Python `d[k] = v` on an insertion-ordered dict: replace in place if the key
is present, otherwise append. -/
def updAssoc {α : Type} [DecidableEq α] {β : Type} (l : List (α × β)) (k : α) (v : β) :
    List (α × β) :=
  match lookupA l k with
  | some _ => l.map (fun kv => if kv.1 = k then (k, v) else kv)
  | none => l ++ [(k, v)]

/-- Python `s.add(x)` on a set, modelled with insertion order retained. -/
def addNew (l : List String) (k : String) : List String :=
  if k ∈ l then l else l ++ [k]

/-- Python truthiness of an optional string value (`None` and `''` are falsy). -/
def truthy : Option String → Bool
  | none => false
  | some v => !(v == "")

/-- Reverse of a string, Python `k[::-1]`. -/
def strRev (x : String) : String := String.mk x.data.reverse

/-! ## The backing store -/

/-- A decoded index descriptor, the JSON value stored in the `<ns>::` hash.
The script tolerates a legacy two-list form (membership and range keys only)
next to the four-list form that also records pre/suf text entries. -/
inductive Desc
  | two (mem rng : List String)
  | four (mem rng : List String) (pre suf : List (String × String))
deriving DecidableEq

/-- The backing store.  `hashes` covers the primary record hashes and the
`:uidx` unique-constraint hashes; `descs ns id` is the decoded view of the
descriptor hash `<ns>::`; `jmaps` is the decoded view of the `:mappings`
hashes written by `Model.save` (value → JSON id list). -/
structure Store where
  hashes : String → String → Option String
  sets : String → String → Bool
  zsets : String → String → Option Int
  descs : String → String → Option Desc
  jmaps : String → String → Option (List String)

def Store.empty : Store :=
  ⟨fun _ _ => none, fun _ _ => false, fun _ _ => none, fun _ _ => none, fun _ _ => none⟩

def Store.hset (s : Store) (k f v : String) : Store :=
  { s with hashes := fun k2 f2 => if k2 = k ∧ f2 = f then some v else s.hashes k2 f2 }

def Store.hdel (s : Store) (k f : String) : Store :=
  { s with hashes := fun k2 f2 => if k2 = k ∧ f2 = f then none else s.hashes k2 f2 }

/-- `DEL` of a whole hash key. -/
def Store.delKey (s : Store) (k : String) : Store :=
  { s with hashes := fun k2 f2 => if k2 = k then none else s.hashes k2 f2 }

def Store.sadd (s : Store) (k m : String) : Store :=
  { s with sets := fun k2 m2 => if k2 = k ∧ m2 = m then true else s.sets k2 m2 }

def Store.srem (s : Store) (k m : String) : Store :=
  { s with sets := fun k2 m2 => if k2 = k ∧ m2 = m then false else s.sets k2 m2 }

def Store.zadd (s : Store) (k m : String) (sc : Int) : Store :=
  { s with zsets := fun k2 m2 => if k2 = k ∧ m2 = m then some sc else s.zsets k2 m2 }

def Store.zrem (s : Store) (k m : String) : Store :=
  { s with zsets := fun k2 m2 => if k2 = k ∧ m2 = m then none else s.zsets k2 m2 }

def Store.descSet (s : Store) (ns id : String) (d : Desc) : Store :=
  { s with descs := fun a b => if a = ns ∧ b = id then some d else s.descs a b }

def Store.descDel (s : Store) (ns id : String) : Store :=
  { s with descs := fun a b => if a = ns ∧ b = id then none else s.descs a b }

def Store.jset (s : Store) (k f : String) (l : List String) : Store :=
  { s with jmaps := fun k2 f2 => if k2 = k ∧ f2 = f then some l else s.jmaps k2 f2 }

/-! ## Key layout -/

def uidxKey (ns col : String) : String := ns ++ ":" ++ col ++ ":uidx"
def idxKey (ns k : String) : String := ns ++ ":" ++ k ++ ":idx"
def preKey (ns a : String) : String := ns ++ ":" ++ a ++ ":pre"
def sufKey (ns a : String) : String := ns ++ ":" ++ a ++ ":suf"
def pkKey (ns id : String) : String := ns ++ ":" ++ id
/-- Member packing `"%s\0%s" % (value, id)` used by the pre/suf sorted sets. -/
def packedMember (v id : String) : String := v ++ "\x00" ++ id

/-! ## The `_redis_writer_lua` script -/

/-- Abnormal end of the script: `viol col` is the `return col` of a failed
unique check (surfaced as `UniqueKeyViolation` by the Python wrapper); `err`
is a Lua runtime error, which happens when a constraint value decoded from
ARGV[3] is JSON `null` (`cjson.null` cannot be passed to `redis.call`). -/
inductive LuaErr
  | viol (col : String)
  | err
deriving DecidableEq

/-- The first pass (`write = false`) of the script's unique-constraint loop:
for each pending mapping, `HGET` the `:uidx` hash and abort with the column
name if the value is already mapped to a different id. -/
def check_uniques (s : Store) (ns id : String) :
    List (String × Option String) → Option LuaErr
  | [] => none
  | (_, none) :: _ => some LuaErr.err
  | (col, some v) :: rest =>
    match s.hashes (uidxKey ns col) v with
    | some known => if known = id then check_uniques s ns id rest else some (LuaErr.viol col)
    | none => check_uniques s ns id rest

/-- The second pass (`write = true`): `HSET` every pending unique mapping.
A `none` value is unreachable here because the check pass aborts on it. -/
def phase_unique_write (ns id : String) (unique : List (String × Option String))
    (s : Store) : Store :=
  unique.foldl
    (fun st cv =>
      match cv.2 with
      | some v => st.hset (uidxKey ns cv.1) v id
      | none => st) s

/-- Removal of stale unique mappings (ARGV[4]): `HDEL` only if the mapping
still points at this id. -/
def phase_udelete (ns id : String) (udelete : List (String × String)) (s : Store) : Store :=
  udelete.foldl
    (fun st cv =>
      match st.hashes (uidxKey ns cv.1) cv.2 with
      | some known => if known = id then st.hdel (uidxKey ns cv.1) cv.2 else st
      | none => st) s

/-- `HDEL` of removed columns from the primary hash (ARGV[5]). -/
def phase_deleted (ns id : String) (deleted : List String) (s : Store) : Store :=
  deleted.foldl (fun st f => st.hdel (pkKey ns id) f) s

/-- `HMSET` of changed/added columns into the primary hash (ARGV[6]). -/
def phase_data (ns id : String) (data : List (String × String)) (s : Store) : Store :=
  data.foldl (fun st kv => st.hset (pkKey ns id) kv.1 kv.2) s

/-- Removal of the old index entries named by the stored descriptor: `SREM`
membership keys, `ZREM` range keys and packed pre/suf members.  A two-list
legacy descriptor contributes empty pre/suf lists. -/
def phase_unindex (ns id : String) (s : Store) : Store :=
  match s.descs ns id with
  | none => s
  | some d =>
    let q4 := match d with
      | Desc.two m r => (m, r, ([] : List (String × String)), ([] : List (String × String)))
      | Desc.four m r p q => (m, r, p, q)
    let s := q4.1.foldl (fun st k => st.srem (idxKey ns k) id) s
    let s := q4.2.1.foldl (fun st k => st.zrem (idxKey ns k) id) s
    let s := q4.2.2.1.foldl (fun st e => st.zrem (preKey ns e.1) (packedMember e.2 id)) s
    q4.2.2.2.foldl (fun st e => st.zrem (sufKey ns e.1) (packedMember e.2 id)) s

/-- On delete: `DEL` the primary hash and `HDEL` the descriptor entry. -/
def phase_delete_record (ns id : String) (isDelete : Bool) (s : Store) : Store :=
  if isDelete then (s.delKey (pkKey ns id)).descDel ns id else s

/-- `ZADD` of the new scored range entries (ARGV[8]). -/
def phase_add_scored (ns id : String) (scored : List (String × Int)) (s : Store) : Store :=
  scored.foldl (fun st kv => st.zadd (idxKey ns kv.1) id kv.2) s

/-- `ZADD` of the new pre-index entries (ARGV[9]), members packed as
`value\0id`. -/
def phase_add_pre (ns id : String) (pre : List (String × String × Int)) (s : Store) : Store :=
  pre.foldl (fun st e => st.zadd (preKey ns e.1) (packedMember e.2.1 id) e.2.2) s

/-- `ZADD` of the new suf-index entries (ARGV[10]). -/
def phase_add_suf (ns id : String) (suf : List (String × String × Int)) (s : Store) : Store :=
  suf.foldl (fun st e => st.zadd (sufKey ns e.1) (packedMember e.2.1 id) e.2.2) s

/-- The write phases of the script after a successful unique check, in script
order. -/
def lua_write_phases (ns id : String) (unique : List (String × Option String))
    (udelete : List (String × String)) (deleted : List String)
    (data : List (String × String)) (scored : List (String × Int))
    (pre suf : List (String × String × Int)) (isDelete : Bool) (s : Store) : Store :=
  phase_add_suf ns id suf (phase_add_pre ns id pre (phase_add_scored ns id scored
    (phase_delete_record ns id isDelete (phase_unindex ns id (phase_data ns id data
      (phase_deleted ns id deleted (phase_udelete ns id udelete
        (phase_unique_write ns id unique s))))))))

/-- The body of `_redis_writer_lua`, phase by phase in script order.  Note two
facts visible in the source: the `keys` argument (ARGV[7]) is decoded by the
caller but never referenced by the script body, so no set additions ever
happen; and no phase writes a descriptor back to `<ns>::` (the descriptor is
only read, and `HDEL`-ed on delete). -/
def run_writer_lua (ns id : String) (unique : List (String × Option String))
    (udelete : List (String × String)) (deleted : List String)
    (data : List (String × String)) (keys : List String)
    (scored : List (String × Int)) (pre suf : List (String × String × Int))
    (isDelete : Bool) (s : Store) : Store × Except LuaErr Nat :=
  match check_uniques s ns id unique with
  | some e => (s, Except.error e)
  | none =>
    let _ := keys
    (lua_write_phases ns id unique udelete deleted data scored pre suf isDelete s,
      Except.ok (scored.length + pre.length + suf.length))

/-- Modelled from the spec: `_prefix_score` lives in `rom.util`, outside the
core source file.  §4.1 asks for a deterministic, order-preserving score over
the leading ~6-8 characters of the text; we take the base-256 value of the
first six character codes (clamped to one byte each), left-justified. -/
def pscore (t : String) : Int :=
  (t.data.take 6).foldl (fun acc c => acc * 256 + Int.ofNat (min c.toNat 255)) 0
    * (256 : Int) ^ (6 - min 6 t.data.length)

/-- The Python wrapper `redis_writer_lua`: appends the `_prefix_score` of each
pre/suf text entry and invokes the script.  A returned column name becomes a
`UniqueKeyViolation`. -/
def redis_writer_lua (ns id : String) (unique : List (String × Option String))
    (udelete : List (String × String)) (deleted : List String)
    (data : List (String × String)) (keys : List String)
    (scored : List (String × Int)) (pre suf : List (String × String))
    (isDelete : Bool) (s : Store) : Store × Except LuaErr Nat :=
  run_writer_lua ns id unique udelete deleted data keys scored
    (pre.map (fun e => (e.1, e.2, pscore e.2)))
    (suf.map (fun e => (e.1, e.2, pscore e.2))) isDelete s

/-! ## Schema, as the excluded model layer supplies it -/

/-- Result of a column keygen: a sequence of keys, a subkey→score mapping, or
a falsy value (the `elif not generated: pass` branch). -/
inductive KeygenOut
  | keyList (ks : List String)
  | scored (m : List (String × Int))
  | noneOut

/-- Per-column schema facts used by `_apply_changes`: the `index`/`unique`/
pre/suf flags, the keygen, and the encode/decode pair (`to_redis` /
`_from_redis`), which belong to the excluded column layer and are taken as
read-only configuration. -/
structure ColSpec where
  name : String
  indexed : Bool
  uniq : Bool
  isPre : Bool
  isSuf : Bool
  hasKeygen : Bool
  keygen : String → KeygenOut
  toRedis : String → String
  fromRedis : String → String

/-- Per-model configuration assembled by the metaclass. `cunique` holds the
normalized multi-column constraints (see `metaclass_cunique`). -/
structure ModelCfg where
  keyPre : String
  pkeyName : String
  cols : List ColSpec
  cunique : List (List String)

def colOf (cfg : ModelCfg) (a : String) : Option ColSpec :=
  cfg.cols.find? (fun c => c.name == a)

def uniqueCols (cfg : ModelCfg) : List String :=
  (cfg.cols.filter (fun c => c.uniq)).map ColSpec.name

/-- An attribute map; `old` carries raw encoded values (`self._last`), `new`
carries decoded values (`self.to_dict()`). -/
def AttrMap : Type := String → Option String

def emptyA : AttrMap := fun _ => none

/-- `pk = old.get(self._pkey) or new.get(self._pkey)` followed by the
`if not pk` check: `none` means `ColumnError`. -/
def pkOf (cfg : ModelCfg) (old new : AttrMap) : Option String :=
  if truthy (old cfg.pkeyName) then old cfg.pkeyName
  else if truthy (new cfg.pkeyName) then new cfg.pkeyName
  else none

/-- Code-point comparison of character lists (Python string `<=`). -/
def charsLe : List Char → List Char → Bool
  | [], _ => true
  | _ :: _, [] => false
  | c :: cs, d :: ds =>
    if c.toNat < d.toNat then true
    else if d.toNat < c.toNat then false
    else charsLe cs ds

def strLeb (a b : String) : Bool := charsLe a.data b.data

/-- Insertion sort on strings (Python `sorted`, code-point order). -/
def insertStr (x : String) : List String → List String
  | [] => [x]
  | y :: ys => if strLeb x y then x :: y :: ys else y :: insertStr x ys

def sortStrs : List String → List String
  | [] => []
  | x :: xs => insertStr x (sortStrs xs)

/-- Model of `_ModelMetaclass.__new__`'s handling of `unique_together`
(source lines 269-287): each declared constraint is kept as
`tuple(sorted(set(comp)))`, i.e. the participating column names sorted after
de-duplication — not the declared order.  The validation errors (singleton
constraint, duplicate constraint, unknown column) abort class creation and
are not modelled further. -/
def metaclass_cunique (declared : List (List String)) : List (List String) :=
  declared.map (fun comp => sortStrs comp.dedup)

/-- Modelled from the spec: `_encode_unique_constraint` lives in `rom.util`,
outside the core source file; §4.4 specifies "the deterministic join of each
participating column's encoded value".  We join with a NUL separator; both
call sites guard that no participating value is absent. -/
def encode_unique_constraint (vals : List (Option String)) : String :=
  String.intercalate "\x00" (vals.filterMap id)

/-! ## The pending mutation set built by `_apply_changes` -/

/-- Buffered write commands of the optimistic (non-scripted) path.  The
pipeline only sends them at `EXEC`; `gUnindex`/`gIndex` stand for the
`GeneralIndex` calls, which live in `rom.index` outside the core source. -/
inductive PipeCmd
  | hdelC (k f : String)
  | hsetOptC (k : String) (f : Option String) (v : String)
  | hmsetC (k : String) (kvs : List (String × String))
  | delC (k : String)
  | gUnindex (id : String)
  | gIndex (id : String) (keys : List String) (scores : List (String × Int))
      (pre suf : List (String × String))

/-- The per-call scratch accumulators of `_apply_changes` (`changes`, `keys`,
`scores`, `data`, `unique`, `deleted`, `udeleted`, the pre/suf lists) plus the
pipeline buffer of the non-scripted path. -/
structure Pending where
  changes : Nat := 0
  keys : List String := []
  scores : List (String × Int) := []
  data : List (String × String) := []
  uniqueM : List (String × Option String) := []
  deleted : List String := []
  udeleted : List (String × String) := []
  pre : List (String × String) := []
  suf : List (String × String) := []
  cmds : List PipeCmd := []

/-- The keygen accumulation block of the column loop (source lines 484-511):
runs for a non-deleted, non-null new value on an indexed/pre/suf column, and
runs regardless of whether the value changed. -/
def keygenAcc (c : ColSpec) (del : Bool) (nval : Option String) (p : Pending) : Pending :=
  match nval with
  | some nv =>
    if c.hasKeygen && !del && (c.indexed || c.isPre || c.isSuf) then
      match c.keygen nv with
      | KeygenOut.keyList ks =>
        let p := if c.indexed then
            { p with keys := ks.foldl (fun a k => addNew a (c.name ++ ":" ++ k)) p.keys }
          else p
        let p := if c.isPre then { p with pre := p.pre ++ ks.map (fun k => (c.name, k)) }
          else p
        if c.isSuf then { p with suf := p.suf ++ ks.map (fun k => (c.name, strRev k)) }
        else p
      | KeygenOut.scored m =>
        let sc := m.foldl
          (fun a kv => updAssoc a (if kv.1 = "" then c.name else c.name ++ ":" ++ kv.1) kv.2)
          p.scores
        { p with scores := sc }
      | KeygenOut.noneOut => p
    else p
  | none => p

/-- One iteration of the `for attr in cls._columns` loop of `_apply_changes`
(source lines 471-547), covering both commit strategies: the scripted path
accumulates `deleted`/`udeleted`/`uniqueM`, the optimistic path buffers
pipeline commands instead. -/
def colStep (useLua : Bool) (modelKP pk : String) (old new : AttrMap) (full del : Bool)
    (p : Pending) (c : ColSpec) : Pending :=
  let ikey : Option String := if c.uniq then some (uidxKey modelKP c.name) else none
  let roval := old c.name
  let oval := roval.map c.fromRedis
  let nval := new c.name
  let p := keygenAcc c del nval p
  if nval = oval ∧ full = false then p
  else
    let p := { p with changes := p.changes + 1 }
    match nval, roval with
    | none, some rov =>
      if useLua then
        let p := { p with deleted := p.deleted ++ [c.name] }
        match ikey with
        | some _ => { p with udeleted := updAssoc p.udeleted c.name rov }
        | none => p
      else
        let p := { p with cmds := p.cmds ++ [PipeCmd.hdelC (pkKey modelKP pk) c.name] }
        match ikey with
        | some ik => { p with cmds := p.cmds ++ [PipeCmd.hdelC ik rov] }
        | none => p
    | nv, rov =>
      let p := match nv.map c.toRedis with
        | some rv => { p with data := updAssoc p.data c.name rv }
        | none => p
      match ikey with
      | none => p
      | some ik =>
        if useLua then
          let p := match rov.map c.fromRedis with
            | some ov =>
              if rov ≠ nv.map c.toRedis then { p with udeleted := updAssoc p.udeleted c.name ov }
              else p
            | none => p
          { p with uniqueM := updAssoc p.uniqueM c.name (nv.map c.toRedis) }
        else
          let p := match rov with
            | some rv => { p with cmds := p.cmds ++ [PipeCmd.hdelC ik rv] }
            | none => p
          { p with cmds := p.cmds ++ [PipeCmd.hsetOptC ik (nv.map c.toRedis) pk] }

/-- Encoded new values of a composite constraint, in constraint order:
`[columns[c].to_redis(nv) if nv is not None else None for ...]`. -/
def ndataOf (cfg : ModelCfg) (new : AttrMap) (uniq : List String) : List (Option String) :=
  uniq.map (fun cn => (new cn).bind (fun nv => (colOf cfg cn).map (fun c => c.toRedis nv)))

/-- One iteration of the `for uniq in cls._cunique` loop (source lines
549-561): queue the old composite row for removal if it changed and was
fully non-null, and queue the new row if fully non-null. -/
def cuniqueStep (cfg : ModelCfg) (old new : AttrMap) (p : Pending) (uniq : List String) :
    Pending :=
  let attr := String.intercalate ":" uniq
  let odata : List (Option String) := uniq.map old
  let ndata := ndataOf cfg new uniq
  let p := if odata ≠ ndata ∧ ¬ none ∈ odata then
      { p with udeleted := updAssoc p.udeleted attr (encode_unique_constraint odata) }
    else p
  if ¬ none ∈ ndata then
    { p with uniqueM := updAssoc p.uniqueM attr (some (encode_unique_constraint ndata)) }
  else p

/-- The full pending mutation set of one `_apply_changes` pass: the column
loop followed by the composite-constraint loop. -/
def buildPending (useLua : Bool) (cfg : ModelCfg) (old new : AttrMap) (full del : Bool)
    (pk : String) : Pending :=
  let p := cfg.cols.foldl (colStep useLua cfg.keyPre pk old new full del) {}
  cfg.cunique.foldl (cuniqueStep cfg old new) p

/-! ## `_apply_changes`, both commit strategies -/

/-- Result of one `_apply_changes` call.  `uniqueViolation` carries the store
as left behind (the claim under test is that it equals the initial store);
`scriptError` is the Lua runtime error path; `columnError` covers the missing
primary key and the non-scripted configuration errors; `noFuel` means the
optimistic retry loop was still running when the fuel ran out. -/
inductive ApplyOutcome
  | ok (s : Store) (changes : Nat)
  | uniqueViolation (s : Store) (col : String)
  | scriptError (s : Store)
  | columnError
  | noFuel

def ApplyOutcome.isOk : ApplyOutcome → Bool
  | ApplyOutcome.ok _ _ => true
  | _ => false

def ApplyOutcome.isViolation : ApplyOutcome → Bool
  | ApplyOutcome.uniqueViolation _ _ => true
  | _ => false

def ApplyOutcome.storeOr : ApplyOutcome → Store → Store
  | ApplyOutcome.ok s _, _ => s
  | ApplyOutcome.uniqueViolation s _, _ => s
  | ApplyOutcome.scriptError s, _ => s
  | _, d => d

/-- The scripted commit strategy of `_apply_changes` (`use_lua` true): build
the pending set, submit it through `redis_writer_lua`, and surface a returned
column name as a `UniqueKeyViolation`. -/
def apply_changes_lua (cfg : ModelCfg) (old new : AttrMap) (full del : Bool) (s : Store) :
    ApplyOutcome :=
  match pkOf cfg old new with
  | none => ApplyOutcome.columnError
  | some pk =>
    let p := buildPending true cfg old new full del pk
    match redis_writer_lua cfg.keyPre pk p.uniqueM p.udeleted p.deleted p.data p.keys
        p.scores p.pre p.suf del s with
    | (s2, Except.ok _) => ApplyOutcome.ok s2 p.changes
    | (s2, Except.error (LuaErr.viol col)) => ApplyOutcome.uniqueViolation s2 col
    | (s2, Except.error LuaErr.err) => ApplyOutcome.scriptError s2

/-! ## The optimistic (non-scripted) commit strategy -/

/-- Modelled from the spec: `GeneralIndex._unindex` lives in `rom.index`,
outside the core source file; §4.2 specifies that it removes every entry
currently listed in the record's stored descriptor and drops the descriptor
entry. -/
def gindex_unindex (ns id : String) (s : Store) : Store :=
  (phase_unindex ns id s).descDel ns id

/-- Modelled from the spec: `GeneralIndex.index` lives in `rom.index`, outside
the core source file; §4.2 specifies that it unindexes the previous
descriptor, materializes the membership keys as set members, the scores,
pre and suf entries as sorted-set members, and ends by persisting the new
descriptor. -/
def gindex_index (ns id : String) (keys : List String) (scores : List (String × Int))
    (pre suf : List (String × String)) (s : Store) : Store :=
  let s := gindex_unindex ns id s
  let s := keys.foldl (fun st k => st.sadd (idxKey ns k) id) s
  let s := scores.foldl (fun st kv => st.zadd (idxKey ns kv.1) id kv.2) s
  let s := pre.foldl (fun st e => st.zadd (preKey ns e.1) (packedMember e.2 id) (pscore e.2)) s
  let s := suf.foldl (fun st e => st.zadd (sufKey ns e.1) (packedMember e.2 id) (pscore e.2)) s
  s.descSet ns id (Desc.four keys (scores.map Prod.fst) pre suf)

/-- Application of one buffered pipeline command at `EXEC` time.  An absent
hash-field value cannot be sent to the store (the client rejects `None`), so
`hsetOptC` with `none` writes nothing. -/
def applyCmd (ns : String) (s : Store) : PipeCmd → Store
  | PipeCmd.hdelC k f => s.hdel k f
  | PipeCmd.hsetOptC k fo v =>
    match fo with
    | some f => s.hset k f v
    | none => s
  | PipeCmd.hmsetC k kvs => kvs.foldl (fun st kv => st.hset k kv.1 kv.2) s
  | PipeCmd.delC k => s.delKey k
  | PipeCmd.gUnindex id => gindex_unindex ns id s
  | PipeCmd.gIndex id keys scores pre suf => gindex_index ns id keys scores pre suf s

def applyCmds (ns : String) (s : Store) (cmds : List PipeCmd) : Store :=
  cmds.foldl (applyCmd ns) s

/-- Outcome of the non-scripted unique pre-check (source lines 448-468):
whether any `:uidx` key was `WATCH`-ed, and the first column whose value was
already mapped to a different id (raised as `UniqueKeyViolation` before any
write command is queued). -/
structure PreCheck where
  watched : Bool
  viol : Option String

/-- Per-column encoding used by the pre-check (`columns[col].to_redis`). -/
def encOf (cfg : ModelCfg) (col : String) (v : String) : String :=
  match colOf cfg col with
  | some c => c.toRedis v
  | none => v

/-- The non-scripted unique pre-check: for each unique column whose new value
is truthy and changed (or `full` forces a rewrite), `WATCH` the `:uidx` key,
read the current mapping, and abort if it points at a different id.  Only
reads reach the store here; after a raise the rest of the call never runs. -/
def opt_unique_check (cfg : ModelCfg) (old new : AttrMap) (full : Bool) (pk : String)
    (s : Store) : PreCheck :=
  (uniqueCols cfg).foldl
    (fun acc col =>
      match acc.viol with
      | some _ => acc
      | none =>
        let ouval := old col
        let nuval := new col
        let nuvale := nuval.map (encOf cfg col)
        if !(truthy nuval && (decide (ouval ≠ nuvale) || full)) then acc
        else
          match nuvale with
          | some nv =>
            let ival := s.hashes (uidxKey cfg.keyPre col) nv
            if ival = none ∨ ival = some "" ∨ ival = some pk then { acc with watched := true }
            else { watched := true, viol := some col }
          | none => acc)
    { watched := false, viol := none }

/-- One pass of the optimistic `while 1` body after the pre-check: the column
loop buffers its commands, then either the delete tail
(`_gindex._unindex`, `DEL`) or the data/index tail (`HMSET` if any data,
`GeneralIndex.index`) is queued. -/
inductive OptStep
  | viol (col : String)
  | commit (watched : Bool) (cmds : List PipeCmd) (changes : Nat)

def opt_iteration (cfg : ModelCfg) (old new : AttrMap) (full del : Bool) (pk : String)
    (s : Store) : OptStep :=
  let pc := opt_unique_check cfg old new full pk s
  match pc.viol with
  | some col => OptStep.viol col
  | none =>
    let p := buildPending false cfg old new full del pk
    if del then
      OptStep.commit pc.watched
        (p.cmds ++ [PipeCmd.gUnindex pk, PipeCmd.delC (pkKey cfg.keyPre pk)]) (p.changes + 1)
    else
      let tail := (if p.data ≠ [] then [PipeCmd.hmsetC (pkKey cfg.keyPre pk) p.data] else [])
        ++ [PipeCmd.gIndex pk p.keys p.scores p.pre p.suf]
      OptStep.commit pc.watched (p.cmds ++ tail) p.changes

/-- The optimistic retry loop (`while 1: ... except WatchError: continue`),
with the infinite loop made visible through fuel: `conflict k` says whether a
concurrent writer touched a watched key during iteration `k`, in which case
`EXEC` discards the buffered commands and the whole read-decide-write cycle
restarts; with no fuel left the loop is still running (`noFuel`).  The
configuration errors of the non-scripted path (more than one unique column,
any `unique_together`) are re-raised at the top of each pass as in the
source. -/
def apply_changes_opt (cfg : ModelCfg) (old new : AttrMap) (full del : Bool)
    (conflict : Nat → Bool) (pk : String) : Nat → Nat → Store → ApplyOutcome
  | 0, _, _ => ApplyOutcome.noFuel
  | fuel + 1, k, s =>
    if (uniqueCols cfg).length > 1 then ApplyOutcome.columnError
    else if cfg.cunique ≠ [] then ApplyOutcome.columnError
    else
      match opt_iteration cfg old new full del pk s with
      | OptStep.viol col => ApplyOutcome.uniqueViolation s col
      | OptStep.commit watched cmds changes =>
        if watched && conflict k then
          apply_changes_opt cfg old new full del conflict pk fuel (k + 1) s
        else ApplyOutcome.ok (applyCmds cfg.keyPre s cmds) changes

/-- `Model._apply_changes`, dispatching on the process-wide `USE_LUA` flag. -/
def apply_changes (useLua : Bool) (cfg : ModelCfg) (old new : AttrMap) (full del : Bool)
    (conflict : Nat → Bool) (fuel : Nat) (s : Store) : ApplyOutcome :=
  if useLua then apply_changes_lua cfg old new full del s
  else
    match pkOf cfg old new with
    | none => ApplyOutcome.columnError
    | some pk => apply_changes_opt cfg old new full del conflict pk fuel 0 s

/-! ## The extra per-column index writes of `Model.save` -/

/-- Column type dispatch of the `Model.save` indexing loop (source lines
634-663): `isinstance` checks against `Text`/`String`, `ForeignModel`/
`ManyToOne`, `DateTime`/`Date`, and everything else. -/
inductive ColKind
  | textK
  | strColK
  | foreignK
  | manyToOneK
  | dateTimeK
  | dateK
  | otherK
deriving DecidableEq

/-- What `Model.save`'s indexing loop needs to know about one column: its
`index=True` flag, its type, and the collaborator numeric encoding of a value
(`float(val)` or `dt2ts(val)`, both from the excluded layers). -/
structure SaveCol where
  name : String
  indexed : Bool
  kind : ColKind
  score : String → Int

/-- One column of the `Model.save` indexing loop: for an indexed column with
a non-null value, `ZADD` the id into `<prefix>:indexed:<attr>` (score 0 for
text/string columns, whose value additionally joins the JSON id list of the
`:mappings` hash; the numeric encoding otherwise) — except that
`ForeignModel` and `ManyToOne` columns are skipped by the `continue` branch.
Each command goes straight to the connection, not into the pipeline. -/
def save_index_step (kp pk : String) (vals : String → Option String) (s : Store)
    (c : SaveCol) : Store :=
  if !c.indexed then s
  else
    let ikey := kp ++ ":indexed:" ++ c.name
    match vals c.name with
    | none => s
    | some v =>
      if c.kind = ColKind.textK ∨ c.kind = ColKind.strColK then
        let s := s.zadd ikey pk 0
        let mk := ikey ++ ":mappings"
        match s.jmaps mk v with
        | none => s.jset mk v [pk]
        | some l => if pk ∈ l then s else s.jset mk v (l ++ [pk])
      else if c.kind = ColKind.foreignK ∨ c.kind = ColKind.manyToOneK then s
      else if c.kind = ColKind.dateTimeK ∨ c.kind = ColKind.dateK then
        s.zadd ikey pk (c.score v)
      else s.zadd ikey pk (c.score v)

/-- The whole post-commit indexing loop of `Model.save`, run after
`_apply_changes` has returned. -/
def save_post_index (kp pk : String) (cols : List SaveCol) (vals : String → Option String)
    (s : Store) : Store :=
  cols.foldl (save_index_step kp pk vals) s

/-- `Model.save` in full: the atomic commit through `_apply_changes` (scripted
strategy), then the extra per-key index writes issued directly on the
connection. -/
def Model_save (useLua : Bool) (cfg : ModelCfg) (old new : AttrMap) (full : Bool)
    (saveCols : List SaveCol) (vals : String → Option String) (s : Store) :
    Option (Store × Nat) :=
  match apply_changes useLua cfg old new full false (fun _ => false) 1 s with
  | ApplyOutcome.ok s2 n => some (save_post_index cfg.keyPre pk2 saveCols vals s2, n)
  | _ => none
where
  pk2 : String := (pkOf cfg old new).getD ""

/-! ## The `Query` object -/

/-- One stored filter: the plain `'attr:value'` strings, `(attr, min, max)`
range triples, `['attr:v1', 'attr:v2']` or-lists, and the `Prefix`/`Suffix`/
`Pattern` wrappers from `rom.index`. -/
inductive Filt
  | litStr (s : String)
  | rangeF (attr : String) (lo hi : Option Int)
  | orStrs (ss : List String)
  | preF (attr v : String)
  | sufF (attr v : String)
  | patF (attr v : String)
deriving DecidableEq

/-- A `Query`: slots `_model _filters _order_by _limit`.  The model is
identified by name. -/
structure Query where
  model : String
  filters : List Filt
  orderBy : Option String
  limit : Option (Nat × Nat)
deriving DecidableEq

/-- Keyword-argument overrides accepted by `Query.replace`. -/
structure ReplaceArgs where
  model2 : Option String := none
  filters2 : Option (List Filt) := none
  orderBy2 : Option (Option String) := none
  limit2 : Option (Option (Nat × Nat)) := none

/-- A value passed to `Query.filter`: Python bool, number, string, 2-tuple
(possibly open-ended), or list of strings. -/
inductive FArg
  | boolV (b : Bool)
  | numV (n : Int)
  | strV (v : String)
  | tupV (lo hi : Option Int)
  | listV (vs : List String)

/-- Python methods mutate their receiver only through attribute assignment,
so the embedding returns the receiver's post-call state alongside the result:
`(self after the call, returned Query)`. `Query.replace` builds the copy. -/
def Query.replace (q : Query) (r : ReplaceArgs) : Query × Query :=
  (q, { model := r.model2.getD q.model, filters := r.filters2.getD q.filters,
        orderBy := r.orderBy2.getD q.orderBy, limit := r.limit2.getD q.limit })

/-- The conversion `Query.filter` applies to one keyword argument, in source
order: bools become their `str()` (a string filter), numbers become the
equality range `(v, v)`, strings become `'attr:value'`, 2-tuples become range
triples, non-empty string lists become or-lists, and anything else raises
`QueryError` (modelled by the empty-list case). -/
def filterArg (attr : String) : FArg → Except String (List Filt)
  | FArg.boolV b => Except.ok [Filt.litStr (attr ++ ":" ++ (if b then "True" else "False"))]
  | FArg.numV n => Except.ok [Filt.rangeF attr (some n) (some n)]
  | FArg.strV v => Except.ok [Filt.litStr (attr ++ ":" ++ v)]
  | FArg.tupV lo hi => Except.ok [Filt.rangeF attr lo hi]
  | FArg.listV vs =>
    if vs ≠ [] then Except.ok [Filt.orStrs (vs.map (fun v => attr ++ ":" ++ v))]
    else Except.error "QueryError"

/-- `Query.filter`: copy the current filters, convert and append each keyword
argument, and hand the result to `replace`. -/
def Query.filter (q : Query) (kwargs : List (String × FArg)) : Query × Except String Query :=
  let conv := kwargs.foldl
    (fun acc kv =>
      match acc with
      | Except.error e => Except.error e
      | Except.ok fs =>
        match filterArg kv.1 kv.2 with
        | Except.ok add => Except.ok (fs ++ add)
        | Except.error e => Except.error e)
    (Except.ok q.filters)
  match conv with
  | Except.ok fs => (q, Except.ok (q.replace { filters2 := some fs }).2)
  | Except.error e => (q, Except.error e)

/-- `Query.startswith`: append a `Prefix` filter per keyword argument. -/
def Query.startswith (q : Query) (kwargs : List (String × String)) : Query × Query :=
  let fs := q.filters ++ kwargs.map (fun kv => Filt.preF kv.1 kv.2)
  (q, (q.replace { filters2 := some fs }).2)

/-- `Query.endswith`: append a `Suffix` filter per keyword argument, over the
reversed text. -/
def Query.endswith (q : Query) (kwargs : List (String × String)) : Query × Query :=
  let fs := q.filters ++ kwargs.map (fun kv => Filt.sufF kv.1 (strRev kv.2))
  (q, (q.replace { filters2 := some fs }).2)

/-- `Query.like`: append a `Pattern` filter per keyword argument. -/
def Query.like (q : Query) (kwargs : List (String × String)) : Query × Query :=
  let fs := q.filters ++ kwargs.map (fun kv => Filt.patF kv.1 kv.2)
  (q, (q.replace { filters2 := some fs }).2)

/-- `Query.order_by`. -/
def Query.order_by (q : Query) (column : String) : Query × Query :=
  (q, (q.replace { orderBy2 := some (some column) }).2)

/-- `Query.limit`. -/
def Query.limit_ (q : Query) (off cnt : Nat) : Query × Query :=
  (q, (q.replace { limit2 := some (some (off, cnt)) }).2)

/-- The encoded view of a new attribute map: the `to_redis` encoding of each
non-null attribute of a declared column, nothing else.  This is what the
round-trip property compares the primary hash against. -/
def encNewOf (cfg : ModelCfg) (new : AttrMap) (f : String) : Option String :=
  (colOf cfg f).bind (fun c => (new f).map (fun v => c.toRedis v))

/-- The score that `Model.save`'s indexing loop attaches for one column kind:
0 for text/string columns, the collaborator numeric encoding otherwise. -/
def saveScoreOf (c : SaveCol) (v : String) : Int :=
  if c.kind = ColKind.textK ∨ c.kind = ColKind.strColK then 0 else c.score v

/-- Stated from the spec's words, for comparison in C6: "the deterministic
join of the participating columns' encoded values taken in the column order
declared in the model's `unique_together` entry". -/
def declared_order_key (cfg : ModelCfg) (new : AttrMap) (declared : List String) : String :=
  encode_unique_constraint (ndataOf cfg new declared)

/-! ## Concrete fixtures used by the witnesses and counterexamples -/

def noKeygen : String → KeygenOut := fun _ => KeygenOut.noneOut

/-- The implicit `id = PrimaryKey()` column; encode/decode are the identity
on the already-stringly id. -/
def idCol : ColSpec :=
  ⟨"id", false, false, false, false, false, noKeygen, fun v => v, fun v => v⟩

/-- A range-indexed column whose keygen returns the score mapping `{'': 5}`. -/
def scoredCol : ColSpec :=
  ⟨"a", true, false, false, false, true, fun _ => KeygenOut.scored [("", 5)],
    fun v => v, fun v => v⟩

/-- A plain-indexed column whose keygen returns the value itself as the one
membership key. -/
def keyedCol : ColSpec :=
  ⟨"a", true, false, false, false, true, fun v => KeygenOut.keyList [v],
    fun v => v, fun v => v⟩

def xCol : ColSpec := ⟨"x", false, false, false, false, false, noKeygen, fun v => v, fun v => v⟩
def yCol : ColSpec := ⟨"y", false, false, false, false, false, noKeygen, fun v => v, fun v => v⟩

/-- A single-column unique attribute. -/
def emailCol : ColSpec :=
  ⟨"email", false, true, false, false, false, noKeygen, fun v => v, fun v => v⟩

def cfgScored : ModelCfg := ⟨"m", "id", [idCol, scoredCol], []⟩
def cfgKeyed : ModelCfg := ⟨"m", "id", [idCol, keyedCol], []⟩
/-- A model declaring `unique_together = [('y', 'x')]`. -/
def cfgComposite : ModelCfg := ⟨"m", "id", [idCol, xCol, yCol], metaclass_cunique [["y", "x"]]⟩
def cfgEmail : ModelCfg := ⟨"m", "id", [idCol, emailCol], []⟩

def newScored : AttrMap :=
  fun x => if x = "id" then some "1" else if x = "a" then some "5" else none
def newKeyed : AttrMap :=
  fun x => if x = "id" then some "1" else if x = "a" then some "v" else none
def newXY : AttrMap :=
  fun a => if a = "id" then some "1" else if a = "x" then some "1"
    else if a = "y" then some "2" else none
def newXY2 : AttrMap :=
  fun a => if a = "id" then some "2" else if a = "x" then some "1"
    else if a = "y" then some "2" else none
def newXonly : AttrMap :=
  fun a => if a = "id" then some "3" else if a = "x" then some "1" else none
def newEmail : AttrMap :=
  fun a => if a = "id" then some "1" else if a = "email" then some "e" else none

/-- A store in which `email = 'e'` is already claimed by id 9. -/
def stEmailTaken : Store := Store.hset Store.empty (uidxKey "m" "email") "e" "9"

/-- The store after creating record 1 of `cfgScored` (used by the deletion
counterexample). -/
def stScored1 : Store :=
  (apply_changes_lua cfgScored emptyA newScored true false Store.empty).storeOr Store.empty

/-- The store after creating record 1 of `cfgComposite`. -/
def stXY1 : Store :=
  (apply_changes_lua cfgComposite emptyA newXY false false Store.empty).storeOr Store.empty

def ownerCol : SaveCol := ⟨"owner", true, ColKind.manyToOneK, fun _ => 0⟩
def nameCol : SaveCol := ⟨"name", true, ColKind.textK, fun _ => 0⟩
def ageCol : SaveCol := ⟨"age", true, ColKind.otherK, fun _ => 7⟩
def valsSave : String → Option String :=
  fun a => if a = "owner" then some "5" else if a = "name" then some "bob"
    else if a = "age" then some "7" else none

/-! ## Helper lemmas: store projections through the write phases -/

theorem foldl_pres {α β : Type} (f : Store → α → Store) (g : Store → β) (l : List α)
    (h : ∀ st x, x ∈ l → g (f st x) = g st) : ∀ s, g (l.foldl f s) = g s := by
  induction l with
  | nil => intro s; rfl
  | cons x xs ih =>
    intro s
    rw [List.foldl_cons, ih (fun st y hy => h st y (List.mem_cons_of_mem x hy)),
      h s x (List.mem_cons_self x xs)]

theorem foldl_pres_sets_true {α : Type} (f : Store → α → Store) (k m : String) (l : List α)
    (h : ∀ st x, x ∈ l → (f st x).sets k m = true → st.sets k m = true) :
    ∀ s, (l.foldl f s).sets k m = true → s.sets k m = true := by
  induction l with
  | nil => intro s hs; exact hs
  | cons x xs ih =>
    intro s hs
    rw [List.foldl_cons] at hs
    exact h s x (List.mem_cons_self x xs)
      (ih (fun st y hy => h st y (List.mem_cons_of_mem x hy)) _ hs)

theorem phase_unique_write_descs (ns id : String) (u : List (String × Option String))
    (s : Store) : (phase_unique_write ns id u s).descs = s.descs := by
  refine foldl_pres _ Store.descs u ?_ s
  intro st x _
  rcases x with ⟨a, b⟩
  cases b <;> rfl

theorem phase_udelete_descs (ns id : String) (ud : List (String × String)) (s : Store) :
    (phase_udelete ns id ud s).descs = s.descs := by
  refine foldl_pres _ Store.descs ud ?_ s
  intro st x _
  cases h : st.hashes (uidxKey ns x.1) x.2 with
  | none => simp only [phase_udelete, h]
  | some known =>
    by_cases hk : known = id <;> simp only [h, hk, if_true, if_false, reduceIte] <;> rfl

theorem foldl_descs {α : Type} (f : Store → α → Store) (l : List α)
    (h : ∀ st x, (f st x).descs = st.descs) (s : Store) :
    (l.foldl f s).descs = s.descs :=
  foldl_pres f Store.descs l (fun st x _ => h st x) s

theorem phase_deleted_descs (ns id : String) (dl : List String) (s : Store) :
    (phase_deleted ns id dl s).descs = s.descs := by
  unfold phase_deleted
  apply foldl_descs
  intro st x
  rfl

theorem phase_data_descs (ns id : String) (d : List (String × String)) (s : Store) :
    (phase_data ns id d s).descs = s.descs := by
  unfold phase_data
  apply foldl_descs
  intro st x
  rfl

theorem phase_unindex_descs (ns id : String) (s : Store) :
    (phase_unindex ns id s).descs = s.descs := by
  unfold phase_unindex
  cases h : s.descs ns id with
  | none => rfl
  | some d =>
    cases d <;>
      simp only [] <;>
      rw [foldl_descs (fun (st : Store) (e : String × String) =>
            st.zrem (sufKey ns e.1) (packedMember e.2 id)) _ (fun _ _ => rfl),
        foldl_descs (fun (st : Store) (e : String × String) =>
            st.zrem (preKey ns e.1) (packedMember e.2 id)) _ (fun _ _ => rfl),
        foldl_descs (fun (st : Store) (k : String) => st.zrem (idxKey ns k) id) _
          (fun _ _ => rfl),
        foldl_descs (fun (st : Store) (k : String) => st.srem (idxKey ns k) id) _
          (fun _ _ => rfl)]

theorem phase_add_scored_descs (ns id : String) (sc : List (String × Int)) (s : Store) :
    (phase_add_scored ns id sc s).descs = s.descs := by
  unfold phase_add_scored
  apply foldl_descs
  intro st x
  rfl

theorem phase_add_pre_descs (ns id : String) (pr : List (String × String × Int)) (s : Store) :
    (phase_add_pre ns id pr s).descs = s.descs := by
  unfold phase_add_pre
  apply foldl_descs
  intro st x
  rfl

theorem phase_add_suf_descs (ns id : String) (sf : List (String × String × Int)) (s : Store) :
    (phase_add_suf ns id sf s).descs = s.descs := by
  unfold phase_add_suf
  apply foldl_descs
  intro st x
  rfl

theorem phase_delete_record_false (ns id : String) (s : Store) :
    phase_delete_record ns id false s = s := rfl

theorem lua_write_phases_descs (ns id : String) (u : List (String × Option String))
    (ud : List (String × String)) (dl : List String) (dt : List (String × String))
    (sc : List (String × Int)) (pr sf : List (String × String × Int)) (s : Store) :
    (lua_write_phases ns id u ud dl dt sc pr sf false s).descs = s.descs := by
  unfold lua_write_phases
  rw [phase_add_suf_descs, phase_add_pre_descs, phase_add_scored_descs,
    phase_delete_record_false, phase_unindex_descs, phase_data_descs,
    phase_deleted_descs, phase_udelete_descs, phase_unique_write_descs]

theorem srem_sets_true {s : Store} {k0 m0 k m : String} :
    (s.srem k0 m0).sets k m = true → s.sets k m = true := by
  simp only [Store.srem]
  by_cases h : k = k0 ∧ m = m0 <;> simp [h]

theorem foldl_sets {α : Type} (f : Store → α → Store) (l : List α)
    (h : ∀ st x, (f st x).sets = st.sets) (s : Store) :
    (l.foldl f s).sets = s.sets :=
  foldl_pres f Store.sets l (fun st x _ => h st x) s

theorem phase_unique_write_sets (ns id : String) (u : List (String × Option String))
    (s : Store) : (phase_unique_write ns id u s).sets = s.sets := by
  unfold phase_unique_write
  apply foldl_sets
  intro st x
  rcases x with ⟨a, b⟩
  cases b <;> rfl

theorem phase_udelete_sets (ns id : String) (ud : List (String × String)) (s : Store) :
    (phase_udelete ns id ud s).sets = s.sets := by
  unfold phase_udelete
  apply foldl_sets
  intro st x
  cases h : st.hashes (uidxKey ns x.1) x.2 with
  | none => simp only [h]
  | some known =>
    by_cases hk : known = id <;> simp only [h, hk, if_true, if_false, reduceIte] <;> rfl

theorem phase_deleted_sets (ns id : String) (dl : List String) (s : Store) :
    (phase_deleted ns id dl s).sets = s.sets := by
  unfold phase_deleted
  apply foldl_sets
  intro st x
  rfl

theorem phase_data_sets (ns id : String) (d : List (String × String)) (s : Store) :
    (phase_data ns id d s).sets = s.sets := by
  unfold phase_data
  apply foldl_sets
  intro st x
  rfl

theorem phase_unindex_sets_true (ns id k m : String) (s : Store) :
    (phase_unindex ns id s).sets k m = true → s.sets k m = true := by
  unfold phase_unindex
  cases h : s.descs ns id with
  | none => exact fun h2 => h2
  | some d =>
    cases d <;> simp only [] <;> intro h2
    case two mem rng =>
      rw [foldl_sets (fun (st : Store) (e : String × String) =>
            st.zrem (sufKey ns e.1) (packedMember e.2 id)) _ (fun _ _ => rfl),
        foldl_sets (fun (st : Store) (e : String × String) =>
            st.zrem (preKey ns e.1) (packedMember e.2 id)) _ (fun _ _ => rfl),
        foldl_sets (fun (st : Store) (k2 : String) => st.zrem (idxKey ns k2) id) _
          (fun _ _ => rfl)] at h2
      exact foldl_pres_sets_true _ k m mem (fun st x _ => srem_sets_true) s h2
    case four mem rng pr sf =>
      rw [foldl_sets (fun (st : Store) (e : String × String) =>
            st.zrem (sufKey ns e.1) (packedMember e.2 id)) _ (fun _ _ => rfl),
        foldl_sets (fun (st : Store) (e : String × String) =>
            st.zrem (preKey ns e.1) (packedMember e.2 id)) _ (fun _ _ => rfl),
        foldl_sets (fun (st : Store) (k2 : String) => st.zrem (idxKey ns k2) id) _
          (fun _ _ => rfl)] at h2
      exact foldl_pres_sets_true _ k m mem (fun st x _ => srem_sets_true) s h2

theorem phase_delete_record_sets (ns id : String) (b : Bool) (s : Store) :
    (phase_delete_record ns id b s).sets = s.sets := by
  cases b <;> rfl

theorem phase_add_scored_sets (ns id : String) (sc : List (String × Int)) (s : Store) :
    (phase_add_scored ns id sc s).sets = s.sets := by
  unfold phase_add_scored
  apply foldl_sets
  intro st x
  rfl

theorem phase_add_pre_sets (ns id : String) (pr : List (String × String × Int)) (s : Store) :
    (phase_add_pre ns id pr s).sets = s.sets := by
  unfold phase_add_pre
  apply foldl_sets
  intro st x
  rfl

theorem phase_add_suf_sets (ns id : String) (sf : List (String × String × Int)) (s : Store) :
    (phase_add_suf ns id sf s).sets = s.sets := by
  unfold phase_add_suf
  apply foldl_sets
  intro st x
  rfl

/-- No execution of the script ever turns a set membership on: every phase
either leaves the `sets` space alone or removes members (`SREM` from the old
descriptor). -/
theorem run_writer_lua_sets_true (ns id : String) (u : List (String × Option String))
    (ud : List (String × String)) (dl : List String) (dt : List (String × String))
    (ks : List String) (sc : List (String × Int)) (pr sf : List (String × String × Int))
    (dflag : Bool) (s : Store) (k m : String) :
    ((run_writer_lua ns id u ud dl dt ks sc pr sf dflag s).1).sets k m = true →
      s.sets k m = true := by
  unfold run_writer_lua
  cases hc : check_uniques s ns id u with
  | some e => exact fun h2 => h2
  | none =>
    simp only []
    unfold lua_write_phases
    intro h2
    rw [phase_add_suf_sets, phase_add_pre_sets, phase_add_scored_sets,
      phase_delete_record_sets] at h2
    have h3 := phase_unindex_sets_true ns id k m _ h2
    rw [phase_data_sets, phase_deleted_sets, phase_udelete_sets,
      phase_unique_write_sets] at h3
    exact h3

/-! ## Claim theorems -/

/-- Claim C1 (code bug).  The spec's invariant — after a successful commit the
stored IndexDescriptor exactly mirrors the live index entries for the record —
fails on the code: the script's non-delete path never writes a descriptor back
to `<ns>::` (first conjunct: the descriptor space is untouched by any
non-delete run), so after creating record 1 of `cfgScored` its range entry is
live in `m:a:idx` while its descriptor entry does not exist (second
conjunct). -/
theorem C1_descriptor_never_mirrored :
    (∀ (ns id : String) (u : List (String × Option String)) (ud : List (String × String))
      (dl : List String) (dt : List (String × String)) (ks : List String)
      (sc : List (String × Int)) (pr sf : List (String × String × Int)) (s : Store),
      ((run_writer_lua ns id u ud dl dt ks sc pr sf false s).1).descs = s.descs)
    ∧ (apply_changes_lua cfgScored emptyA newScored true false Store.empty).isOk = true
    ∧ ((apply_changes_lua cfgScored emptyA newScored true false Store.empty).storeOr
        Store.empty).zsets (idxKey "m" "a") "1" = some 5
    ∧ ((apply_changes_lua cfgScored emptyA newScored true false Store.empty).storeOr
        Store.empty).descs "m" "1" = none := by
  refine ⟨?_, by decide, by decide, by decide⟩
  intro ns id u ud dl dt ks sc pr sf s
  unfold run_writer_lua
  cases hc : check_uniques s ns id u with
  | some e => rfl
  | none =>
    simp only []
    exact lua_write_phases_descs ns id u ud dl dt sc pr sf s

/-- Claim C3 (code bug).  Derived membership keys are computed and passed to
`redis_writer_lua` (third conjunct: the pending `keys` list for `cfgKeyed` is
`["a:v"]`), but the script never materializes them: starting from any store it
never turns a set membership on (first conjunct), so after the successful
create (second conjunct) id 1 is not a member of `m:a:v:idx` (last
conjunct). -/
theorem C3_membership_keys_not_materialized :
    (∀ (ns id : String) (u : List (String × Option String)) (ud : List (String × String))
      (dl : List String) (dt : List (String × String)) (ks : List String)
      (sc : List (String × Int)) (pr sf : List (String × String × Int)) (dflag : Bool)
      (k m : String),
      ((run_writer_lua ns id u ud dl dt ks sc pr sf dflag Store.empty).1).sets k m = false)
    ∧ (buildPending true cfgKeyed emptyA newKeyed true false "1").keys = ["a:v"]
    ∧ (apply_changes_lua cfgKeyed emptyA newKeyed true false Store.empty).isOk = true
    ∧ ((apply_changes_lua cfgKeyed emptyA newKeyed true false Store.empty).storeOr
        Store.empty).sets (idxKey "m" "a:v") "1" = false := by
  refine ⟨?_, by decide, by decide, by decide⟩
  intro ns id u ud dl dt ks sc pr sf dflag k m
  cases hfin : ((run_writer_lua ns id u ud dl dt ks sc pr sf dflag Store.empty).1).sets k m
  · rfl
  · exact absurd (run_writer_lua_sets_true ns id u ud dl dt ks sc pr sf dflag
      Store.empty k m hfin) (by simp [Store.empty])

/-- Claim C4 (code bug).  After committing record 1 of `cfgScored` and then
applying the delete, the primary hash is gone and the descriptor entry is
gone, but the record's range index entry survives in `m:a:idx` — the delete
unindexes only what the stored descriptor lists, and no descriptor was ever
persisted. -/
theorem C4_delete_leaves_index_entry :
    (apply_changes_lua cfgScored newScored emptyA false true stScored1).isOk = true
    ∧ ((apply_changes_lua cfgScored newScored emptyA false true stScored1).storeOr
        stScored1).hashes (pkKey "m" "1") "a" = none
    ∧ ((apply_changes_lua cfgScored newScored emptyA false true stScored1).storeOr
        stScored1).hashes (pkKey "m" "1") "id" = none
    ∧ ((apply_changes_lua cfgScored newScored emptyA false true stScored1).storeOr
        stScored1).descs "m" "1" = none
    ∧ ((apply_changes_lua cfgScored newScored emptyA false true stScored1).storeOr
        stScored1).zsets (idxKey "m" "a") "1" = some 5 := by
  exact ⟨by decide, by decide, by decide, by decide, by decide⟩

theorem run_writer_lua_abort (ns id : String) (u : List (String × Option String))
    (ud : List (String × String)) (dl : List String) (dt : List (String × String))
    (ks : List String) (sc : List (String × Int)) (pr sf : List (String × String × Int))
    (dflag : Bool) (s : Store) {s2 : Store} {e : LuaErr}
    (h : run_writer_lua ns id u ud dl dt ks sc pr sf dflag s = (s2, Except.error e)) :
    s2 = s := by
  unfold run_writer_lua at h
  split at h
  · exact ((Prod.mk.injEq _ _ _ _).mp h).1.symm
  · simp [Prod.mk.injEq] at h

theorem apply_changes_lua_violation (cfg : ModelCfg) (old new : AttrMap) (full del : Bool)
    (s s2 : Store) (col : String)
    (h : apply_changes_lua cfg old new full del s = ApplyOutcome.uniqueViolation s2 col) :
    s2 = s := by
  unfold apply_changes_lua at h
  split at h
  · exact absurd h (by simp)
  · simp only [] at h
    split at h
    · exact absurd h (by simp)
    · rename_i pk heq s3 col2 hr
      injection h with h1 h2
      subst h1
      unfold redis_writer_lua at hr
      exact run_writer_lua_abort _ _ _ _ _ _ _ _ _ _ _ _ hr
    · exact absurd h (by simp)

theorem apply_changes_opt_violation (cfg : ModelCfg) (old new : AttrMap) (full del : Bool)
    (conflict : Nat → Bool) (pk : String) :
    ∀ (fuel k : Nat) (s s2 : Store) (col : String),
      apply_changes_opt cfg old new full del conflict pk fuel k s
        = ApplyOutcome.uniqueViolation s2 col → s2 = s := by
  intro fuel
  induction fuel with
  | zero =>
    intro k s s2 col h
    exact absurd h (by simp [apply_changes_opt])
  | succ n ih =>
    intro k s s2 col h
    unfold apply_changes_opt at h
    split at h
    · exact absurd h (by simp)
    · split at h
      · exact absurd h (by simp)
      · split at h
        · injection h with h1 h2
          exact h1.symm
        · split at h
          · exact ih _ _ _ _ h
          · exact absurd h (by simp)

/-- Claim C2 (confirmed).  On either commit strategy, an `_apply_changes` call
that ends in a `UniqueKeyViolation` leaves the store exactly as it was: the
scripted path's check pass precedes every write of the script, and the
optimistic path raises before `EXEC` ever sends the buffered commands, while
watch conflicts discard the batch. -/
theorem C2_violation_leaves_store_unchanged (useLua : Bool) (cfg : ModelCfg)
    (old new : AttrMap) (full del : Bool) (conflict : Nat → Bool) (fuel : Nat)
    (s s2 : Store) (col : String)
    (h : apply_changes useLua cfg old new full del conflict fuel s
      = ApplyOutcome.uniqueViolation s2 col) :
    s2 = s := by
  unfold apply_changes at h
  cases useLua with
  | true =>
    rw [if_pos rfl] at h
    exact apply_changes_lua_violation cfg old new full del s s2 col h
  | false =>
    simp only [Bool.false_eq_true, if_false] at h
    split at h
    · exact absurd h (by simp)
    · exact apply_changes_opt_violation cfg old new full del conflict _ fuel 0 s s2 col h

/-- Witness for C2: with `email = 'e'` already mapped to id 9, creating record
1 with the same email is rejected and the store is returned untouched. -/
theorem C2_witness :
    (apply_changes true cfgEmail emptyA newEmail false false (fun _ => false) 1 stEmailTaken
      = ApplyOutcome.uniqueViolation stEmailTaken "email")
    ∧ stEmailTaken = stEmailTaken :=
  ⟨rfl, C2_violation_leaves_store_unchanged true cfgEmail emptyA newEmail false false
    (fun _ => false) 1 stEmailTaken stEmailTaken "email" rfl⟩

/-- Claim C8 (confirmed).  The optimistic path's `while 1` loop re-runs the
entire read-decide-write cycle (including the unique pre-check and the
pending-set computation, visible in the recursion through `opt_iteration` on
the same store) after every `WatchError`, and it has no retry bound: when a
key was watched, the check passed, and every iteration conflicts, no amount of
fuel makes it return. -/
theorem C8_optimistic_retry_never_returns (cfg : ModelCfg) (old new : AttrMap)
    (full del : Bool) (conflict : Nat → Bool) (pk : String) (s : Store)
    (h1 : (uniqueCols cfg).length ≤ 1) (h2 : cfg.cunique = [])
    (h3 : (opt_unique_check cfg old new full pk s).watched = true)
    (h4 : (opt_unique_check cfg old new full pk s).viol = none)
    (h5 : ∀ k, conflict k = true) :
    ∀ fuel k, apply_changes_opt cfg old new full del conflict pk fuel k s
      = ApplyOutcome.noFuel := by
  have hcommit : ∃ cmds changes,
      opt_iteration cfg old new full del pk s = OptStep.commit true cmds changes := by
    unfold opt_iteration
    simp only [h3, h4]
    cases del <;> exact ⟨_, _, rfl⟩
  obtain ⟨cmds, changes, hcom⟩ := hcommit
  intro fuel
  induction fuel with
  | zero => intro k; rfl
  | succ n ih =>
    intro k
    unfold apply_changes_opt
    rw [if_neg (by omega : ¬ (uniqueCols cfg).length > 1),
      if_neg (by simp [h2] : ¬ cfg.cunique ≠ []), hcom]
    simp only [h5 k, Bool.and_true]
    exact ih (k + 1)

/-- Witness for C8: a unique-email create on an empty store, with a conflict
injected at every iteration, is still running after five passes. -/
theorem C8_witness :
    apply_changes_opt cfgEmail emptyA newEmail false false (fun _ => true) "1" 5 0 Store.empty
      = ApplyOutcome.noFuel :=
  C8_optimistic_retry_never_returns cfgEmail emptyA newEmail false false (fun _ => true) "1"
    Store.empty (by decide) rfl rfl rfl (fun _ => rfl) 5 0

theorem lookupA_cons {α : Type} [DecidableEq α] {β : Type} (a : α) (b : β)
    (t : List (α × β)) (k : α) :
    lookupA ((a, b) :: t) k = if a = k then some b else lookupA t k := rfl

theorem lookupA_append_self {α : Type} [DecidableEq α] {β : Type} {l : List (α × β)}
    {k : α} (v : β) (h : lookupA l k = none) : lookupA (l ++ [(k, v)]) k = some v := by
  induction l with
  | nil => simp [lookupA]
  | cons a t ih =>
    rcases a with ⟨a1, a2⟩
    by_cases hk : a1 = k
    · rw [lookupA_cons, if_pos hk] at h
      exact absurd h (by simp)
    · rw [List.cons_append, lookupA_cons, if_neg hk]
      rw [lookupA_cons, if_neg hk] at h
      exact ih h

theorem lookupA_append_other {α : Type} [DecidableEq α] {β : Type} {l : List (α × β)}
    {k k2 : α} (v : β) (h : k2 ≠ k) : lookupA (l ++ [(k, v)]) k2 = lookupA l k2 := by
  induction l with
  | nil =>
    rw [List.nil_append, lookupA_cons, if_neg (fun he => h he.symm)]
  | cons a t ih =>
    rcases a with ⟨a1, a2⟩
    rw [List.cons_append, lookupA_cons, lookupA_cons]
    by_cases hk : a1 = k2
    · rw [if_pos hk, if_pos hk]
    · rw [if_neg hk, if_neg hk]
      exact ih

theorem lookupA_map_self {α : Type} [DecidableEq α] {β : Type} {l : List (α × β)}
    {k : α} {w : β} (v : β) (h : lookupA l k = some w) :
    lookupA (l.map (fun kv => if kv.1 = k then (k, v) else kv)) k = some v := by
  induction l with
  | nil => exact absurd h (by simp [lookupA])
  | cons a t ih =>
    rcases a with ⟨a1, a2⟩
    rw [lookupA_cons] at h
    by_cases hk : a1 = k
    · subst hk
      rw [List.map_cons,
        show (if (a1, a2).1 = a1 then (a1, v) else (a1, a2)) = (a1, v) from by simp,
        lookupA_cons, if_pos rfl]
    · rw [if_neg hk] at h
      rw [List.map_cons,
        show (if (a1, a2).1 = k then (k, v) else (a1, a2)) = (a1, a2) from by simp [hk],
        lookupA_cons, if_neg hk]
      exact ih h

theorem lookupA_map_other {α : Type} [DecidableEq α] {β : Type} {l : List (α × β)}
    {k k2 : α} (v : β) (h : k2 ≠ k) :
    lookupA (l.map (fun kv => if kv.1 = k then (k, v) else kv)) k2 = lookupA l k2 := by
  induction l with
  | nil => rfl
  | cons a t ih =>
    rcases a with ⟨a1, a2⟩
    by_cases hk : a1 = k
    · subst hk
      rw [List.map_cons,
        show (if (a1, a2).1 = a1 then (a1, v) else (a1, a2)) = (a1, v) from by simp,
        lookupA_cons, lookupA_cons, if_neg (fun he => h he.symm),
        if_neg (fun he => h he.symm)]
      exact ih
    · rw [List.map_cons,
        show (if (a1, a2).1 = k then (k, v) else (a1, a2)) = (a1, a2) from by simp [hk],
        lookupA_cons, lookupA_cons]
      by_cases hk2 : a1 = k2
      · rw [if_pos hk2, if_pos hk2]
      · rw [if_neg hk2, if_neg hk2]
        exact ih

theorem lookupA_updAssoc_self {α : Type} [DecidableEq α] {β : Type} (l : List (α × β))
    (k : α) (v : β) : lookupA (updAssoc l k v) k = some v := by
  unfold updAssoc
  cases h : lookupA l k with
  | none => exact lookupA_append_self v h
  | some w => exact lookupA_map_self v h

theorem lookupA_updAssoc_other {α : Type} [DecidableEq α] {β : Type} (l : List (α × β))
    {k k2 : α} (v : β) (h : k2 ≠ k) : lookupA (updAssoc l k v) k2 = lookupA l k2 := by
  unfold updAssoc
  cases hl : lookupA l k with
  | none => exact lookupA_append_other v h
  | some w => exact lookupA_map_other v h

/-- Claim C5 (confirmed).  First conjunct: whenever any participating column's
encoded new value is absent, the composite-constraint step adds nothing to the
pending unique map (so the script neither checks nor writes that constraint).
Remaining conjuncts, on `cfgComposite` (constraint over `x`,`y`): creating
record 3 with only `x` set succeeds and writes no composite row; after record
1 claims `(1, 2)`, creating record 2 with the same pair is rejected with the
constraint's name. -/
theorem C5_composite_null_skip_and_enforce :
    (∀ (cfg : ModelCfg) (old new : AttrMap) (p : Pending) (uniq : List String),
      none ∈ ndataOf cfg new uniq → (cuniqueStep cfg old new p uniq).uniqueM = p.uniqueM)
    ∧ (buildPending true cfgComposite emptyA newXonly false false "3").uniqueM = []
    ∧ (apply_changes_lua cfgComposite emptyA newXonly false false Store.empty).isOk = true
    ∧ ((apply_changes_lua cfgComposite emptyA newXonly false false Store.empty).storeOr
        Store.empty).hashes (uidxKey "m" "x:y") (encode_unique_constraint [some "1"]) = none
    ∧ stXY1.hashes (uidxKey "m" "x:y")
        (encode_unique_constraint [some "1", some "2"]) = some "1"
    ∧ apply_changes_lua cfgComposite emptyA newXY2 false false stXY1
      = ApplyOutcome.uniqueViolation stXY1 "x:y" := by
  refine ⟨?_, by decide, by decide, by decide, by decide, by rfl⟩
  intro cfg old new p uniq h
  unfold cuniqueStep
  simp only []
  rw [if_neg (not_not_intro h)]
  split <;> rfl

/-- Witness for C5's quantified conjunct: on `cfgComposite`, with `y` absent
from the new map, the composite step leaves the pending unique map as it
found it. -/
theorem C5_witness :
    (cuniqueStep cfgComposite emptyA newXonly
      { uniqueM := [("seed", some "s")] } ["x", "y"]).uniqueM = [("seed", some "s")] :=
  C5_composite_null_skip_and_enforce.1 cfgComposite emptyA newXonly
    { uniqueM := [("seed", some "s")] } ["x", "y"] (by decide)

/-- Counterexample for C6: the model declares `unique_together = [('y','x')]`,
but the metaclass keeps the constraint as the sorted tuple `('x','y')`, and
the row value actually produced for record 1 (`x = 1`, `y = 2`) is the join
`"1\x002"` in sorted column order — not the declared-order join `"2\x001"`. -/
theorem C6_counterexample :
    cfgComposite.cunique = [["x", "y"]]
    ∧ lookupA (buildPending true cfgComposite emptyA newXY false false "1").uniqueM "x:y"
      = some (some (encode_unique_constraint [some "1", some "2"]))
    ∧ declared_order_key cfgComposite newXY ["y", "x"]
      = encode_unique_constraint [some "2", some "1"]
    ∧ encode_unique_constraint [some "1", some "2"]
      ≠ declared_order_key cfgComposite newXY ["y", "x"] := by
  exact ⟨by decide, by decide, by decide, by decide⟩

/-- Claim C6 as amended (corrected).  The composite key written (and checked)
is the deterministic join of the participating columns' encoded values taken
in the metaclass-normalized order — the column names sorted after
de-duplication — which agrees with the declared order only when the
declaration was already sorted. -/
theorem C6_composite_key_sorted_order (cfg : ModelCfg) (old new : AttrMap) (p : Pending)
    (comp u : List String) (hu : u ∈ metaclass_cunique [comp])
    (h : ¬ none ∈ ndataOf cfg new u) :
    u = sortStrs comp.dedup
    ∧ lookupA (cuniqueStep cfg old new p u).uniqueM (String.intercalate ":" u)
      = some (some (encode_unique_constraint (ndataOf cfg new u))) := by
  have hu2 : u = sortStrs comp.dedup := by
    simpa [metaclass_cunique] using hu
  refine ⟨hu2, ?_⟩
  unfold cuniqueStep
  simp only []
  rw [if_pos h]
  split <;> exact lookupA_updAssoc_self _ _ _

/-- Witness for C6's amended claim at the declared constraint `('y','x')`
with `x = 1`, `y = 2`. -/
theorem C6_witness :
    ["x", "y"] = sortStrs (["y", "x"].dedup)
    ∧ lookupA (cuniqueStep cfgComposite emptyA newXY {} ["x", "y"]).uniqueM
        (String.intercalate ":" ["x", "y"])
      = some (some (encode_unique_constraint (ndataOf cfgComposite newXY ["x", "y"]))) :=
  C6_composite_key_sorted_order cfgComposite emptyA newXY {} ["y", "x"] ["x", "y"]
    (by decide) (by decide)

theorem zadd_zsets_ne {s : Store} {k0 m0 key m : String} {sc : Int} (h : key ≠ k0) :
    (s.zadd k0 m0 sc).zsets key m = s.zsets key m := by
  show (if key = k0 ∧ m = m0 then some sc else s.zsets key m) = s.zsets key m
  exact if_neg (fun hh => h hh.1)

theorem jset_zsets (s : Store) (k f : String) (l : List String) :
    (s.jset k f l).zsets = s.zsets := rfl

theorem save_index_step_zsets_other (kp pk : String) (vals : String → Option String)
    (s : Store) (d : SaveCol) (key m : String) (h : key ≠ kp ++ ":indexed:" ++ d.name) :
    (save_index_step kp pk vals s d).zsets key m = s.zsets key m := by
  unfold save_index_step
  split
  · rfl
  · cases vals d.name with
    | none => rfl
    | some v =>
      simp only []
      split
      · split
        · rw [jset_zsets]
          exact zadd_zsets_ne h
        · split
          · exact zadd_zsets_ne h
          · rw [jset_zsets]
            exact zadd_zsets_ne h
      · split
        · rfl
        · split
          · exact zadd_zsets_ne h
          · exact zadd_zsets_ne h

theorem save_post_index_zsets_other (kp pk : String) (vals : String → Option String)
    (rest : List SaveCol) (key m : String)
    (h : ∀ d ∈ rest, key ≠ kp ++ ":indexed:" ++ d.name) (s : Store) :
    (save_post_index kp pk rest vals s).zsets key m = s.zsets key m := by
  unfold save_post_index
  exact foldl_pres _ (fun st => st.zsets key m) rest
    (fun st d hd => save_index_step_zsets_other kp pk vals st d key m (h d hd)) s

theorem zadd_zsets_self {s : Store} {k0 m0 : String} {sc : Int} :
    (s.zadd k0 m0 sc).zsets k0 m0 = some sc := by
  show (if k0 = k0 ∧ m0 = m0 then some sc else s.zsets k0 m0) = some sc
  exact if_pos ⟨rfl, rfl⟩

theorem jset_jmaps_self {s : Store} {k0 f0 : String} {l : List String} :
    (s.jset k0 f0 l).jmaps k0 f0 = some l := by
  show (if k0 = k0 ∧ f0 = f0 then some l else s.jmaps k0 f0) = some l
  exact if_pos ⟨rfl, rfl⟩

theorem jset_jmaps_ne {s : Store} {k0 f0 key f : String} {l : List String} (h : key ≠ k0) :
    (s.jset k0 f0 l).jmaps key f = s.jmaps key f := by
  show (if key = k0 ∧ f = f0 then some l else s.jmaps key f) = s.jmaps key f
  exact if_neg (fun hh => h hh.1)

theorem str_append_right_cancel {a b s : String} (h : a ++ s = b ++ s) : a = b := by
  cases a with
  | mk da =>
    cases b with
    | mk db =>
      cases s with
      | mk ds =>
        injection h with h2
        exact congrArg String.mk (List.append_cancel_right h2)

theorem save_index_step_jmaps_other (kp pk : String) (vals : String → Option String)
    (s : Store) (d : SaveCol) (key f : String)
    (h : key ≠ kp ++ ":indexed:" ++ d.name ++ ":mappings") :
    (save_index_step kp pk vals s d).jmaps key f = s.jmaps key f := by
  unfold save_index_step
  split
  · rfl
  · cases vals d.name with
    | none => rfl
    | some v =>
      simp only []
      split
      · split
        · exact jset_jmaps_ne h
        · split
          · rfl
          · exact jset_jmaps_ne h
      · split
        · rfl
        · split
          · rfl
          · rfl

theorem save_post_index_jmaps_other (kp pk : String) (vals : String → Option String)
    (rest : List SaveCol) (key f : String)
    (h : ∀ d ∈ rest, key ≠ kp ++ ":indexed:" ++ d.name ++ ":mappings") (s : Store) :
    (save_post_index kp pk rest vals s).jmaps key f = s.jmaps key f := by
  unfold save_post_index
  exact foldl_pres _ (fun st => st.jmaps key f) rest
    (fun st d hd => save_index_step_jmaps_other kp pk vals st d key f (h d hd)) s

theorem save_index_step_jmaps_self (kp pk : String) (vals : String → Option String)
    (s : Store) (c : SaveCol) (v : String) (hidx : c.indexed = true)
    (htxt : c.kind = ColKind.textK ∨ c.kind = ColKind.strColK)
    (hval : vals c.name = some v) :
    ∃ l, (save_index_step kp pk vals s c).jmaps
        (kp ++ ":indexed:" ++ c.name ++ ":mappings") v = some l ∧ pk ∈ l := by
  unfold save_index_step
  rw [hidx]
  simp only [Bool.not_true, Bool.false_eq_true, if_false, hval]
  rw [if_pos htxt]
  split
  · exact ⟨[pk], jset_jmaps_self, List.mem_singleton_self pk⟩
  · rename_i l hl
    split
    · rename_i hin
      exact ⟨l, hl, hin⟩
    · exact ⟨l ++ [pk], jset_jmaps_self, List.mem_append_right l (List.mem_singleton_self pk)⟩

theorem save_index_step_self (kp pk : String) (vals : String → Option String) (s : Store)
    (c : SaveCol) (v : String) (hidx : c.indexed = true)
    (hk1 : c.kind ≠ ColKind.foreignK) (hk2 : c.kind ≠ ColKind.manyToOneK)
    (hval : vals c.name = some v) :
    (save_index_step kp pk vals s c).zsets (kp ++ ":indexed:" ++ c.name) pk
      = some (saveScoreOf c v) := by
  unfold save_index_step saveScoreOf
  rw [hidx]
  simp only [Bool.not_true, Bool.false_eq_true, if_false, hval]
  by_cases htxt : c.kind = ColKind.textK ∨ c.kind = ColKind.strColK
  · rw [if_pos htxt, if_pos htxt]
    split
    · rw [jset_zsets]
      exact zadd_zsets_self
    · split
      · exact zadd_zsets_self
      · rw [jset_zsets]
        exact zadd_zsets_self
  · rw [if_neg htxt, if_neg htxt,
      if_neg (fun hf => hf.elim (fun e => hk1 e) (fun e => hk2 e))]
    split
    · exact zadd_zsets_self
    · exact zadd_zsets_self

/-- Counterexample for C9: `owner` is an indexed `ManyToOne` column with the
non-null value 5, yet after `Model.save`'s indexing loop nothing was written
under `u:indexed:owner` — the loop's `continue` skips `ForeignModel` and
`ManyToOne` columns, so the claim's "every indexed attribute with a non-null
value" is too strong. -/
theorem C9_counterexample :
    ownerCol.indexed = true
    ∧ valsSave "owner" = some "5"
    ∧ (save_post_index "u" "3" [ownerCol, nameCol, ageCol] valsSave Store.empty).zsets
        ("u" ++ ":indexed:" ++ "owner") "3" = none := by
  exact ⟨rfl, rfl, by decide⟩

/-- Claim C9 as amended (corrected).  After the atomic commit, `Model.save`
writes each indexed attribute with a non-null value — except `ForeignModel`
and `ManyToOne` columns, which are skipped — into its own
`<prefix>:indexed:<attr>` sorted set (score 0 for text/string columns, the
collaborator numeric encoding otherwise), as separate per-key commands
applied after the commit, one column at a time; and for text/string columns
the value's id list in the `<prefix>:indexed:<attr>:mappings` hash ends up
containing the record's id. -/
theorem C9_save_indexes_non_fk_columns (kp pk : String) (cols : List SaveCol)
    (vals : String → Option String) (s : Store) (c : SaveCol) (v : String)
    (hmem : c ∈ cols)
    (hnodup : (cols.map (fun d => kp ++ ":indexed:" ++ d.name)).Nodup)
    (hidx : c.indexed = true)
    (hk1 : c.kind ≠ ColKind.foreignK) (hk2 : c.kind ≠ ColKind.manyToOneK)
    (hval : vals c.name = some v) :
    ((save_post_index kp pk cols vals s).zsets (kp ++ ":indexed:" ++ c.name) pk
      = some (saveScoreOf c v))
    ∧ (c.kind = ColKind.textK ∨ c.kind = ColKind.strColK →
        ∃ l, (save_post_index kp pk cols vals s).jmaps
          (kp ++ ":indexed:" ++ c.name ++ ":mappings") v = some l ∧ pk ∈ l) := by
  induction cols generalizing s with
  | nil => exact absurd hmem (List.not_mem_nil c)
  | cons d rest ih =>
    rcases List.mem_cons.mp hmem with hdc | hrest
    · subst hdc
      unfold save_post_index
      rw [List.foldl_cons]
      have hrest_ne : ∀ d2 ∈ rest,
          kp ++ ":indexed:" ++ c.name ≠ kp ++ ":indexed:" ++ d2.name := by
        intro d2 hd2 hkey
        have hhead := (List.nodup_cons.mp hnodup).1
        have hx : kp ++ ":indexed:" ++ d2.name
            ∈ List.map (fun d3 => kp ++ ":indexed:" ++ d3.name) rest :=
          List.mem_map_of_mem (fun d3 => kp ++ ":indexed:" ++ d3.name) hd2
        rw [← hkey] at hx
        exact hhead hx
      have hrest_ne2 : ∀ d2 ∈ rest, kp ++ ":indexed:" ++ c.name ++ ":mappings"
          ≠ kp ++ ":indexed:" ++ d2.name ++ ":mappings" := by
        intro d2 hd2 hkey
        exact hrest_ne d2 hd2 (str_append_right_cancel hkey)
      rw [show List.foldl (save_index_step kp pk vals) (save_index_step kp pk vals s c) rest
          = save_post_index kp pk rest vals (save_index_step kp pk vals s c) from rfl,
        save_post_index_zsets_other kp pk vals rest _ pk hrest_ne]
      refine ⟨save_index_step_self kp pk vals s c v hidx hk1 hk2 hval, ?_⟩
      intro htxt
      rw [save_post_index_jmaps_other kp pk vals rest _ v hrest_ne2]
      exact save_index_step_jmaps_self kp pk vals s c v hidx htxt hval
    · unfold save_post_index
      rw [List.foldl_cons]
      exact ih (save_index_step kp pk vals s d) hrest (List.nodup_cons.mp hnodup).2

/-- Witness for C9's amended statement: the text column `name` of the fixture
is indexed with score 0, and the id joins the `bob` entry of the
`:mappings` hash. -/
theorem C9_witness :
    ((save_post_index "u" "3" [ownerCol, nameCol, ageCol] valsSave Store.empty).zsets
      ("u" ++ ":indexed:" ++ nameCol.name) "3" = some (saveScoreOf nameCol "bob"))
    ∧ (∃ l, (save_post_index "u" "3" [ownerCol, nameCol, ageCol] valsSave Store.empty).jmaps
        ("u" ++ ":indexed:" ++ nameCol.name ++ ":mappings") "bob" = some l ∧ "3" ∈ l) :=
  have h := C9_save_indexes_non_fk_columns "u" "3" [ownerCol, nameCol, ageCol] valsSave
    Store.empty nameCol "bob"
    (List.mem_cons_of_mem ownerCol (List.mem_cons_self nameCol [ageCol]))
    (by decide) rfl (by decide) (by decide) rfl
  ⟨h.1, h.2 (Or.inl rfl)⟩

/-- Claim C10 (confirmed).  Every `Query` combinator returns a fresh `Query`
and leaves the receiver's `_model`, `_filters`, `_order_by` and `_limit`
untouched: the first component of each embedded method is the receiver's
post-call state, and it is the receiver itself.  The remaining conjuncts pin
down the returned copy for each combinator. -/
theorem C10_query_combinators_pure (q : Query) (r : ReplaceArgs)
    (kwf : List (String × FArg)) (kws : List (String × String)) (col : String)
    (off cnt : Nat) :
    (q.replace r).1 = q
    ∧ (q.filter kwf).1 = q
    ∧ (q.startswith kws).1 = q
    ∧ (q.endswith kws).1 = q
    ∧ (q.like kws).1 = q
    ∧ (q.order_by col).1 = q
    ∧ (q.limit_ off cnt).1 = q
    ∧ (q.startswith kws).2 = { q with filters := q.filters ++ kws.map (fun kv => Filt.preF kv.1 kv.2) }
    ∧ (q.endswith kws).2 = { q with filters := q.filters ++ kws.map (fun kv => Filt.sufF kv.1 (strRev kv.2)) }
    ∧ (q.like kws).2 = { q with filters := q.filters ++ kws.map (fun kv => Filt.patF kv.1 kv.2) }
    ∧ (q.order_by col).2 = { q with orderBy := some col }
    ∧ (q.limit_ off cnt).2 = { q with limit := some (off, cnt) }
    ∧ (q.filter [("a", FArg.strV "b")]).2
      = Except.ok { q with filters := q.filters ++ [Filt.litStr "a:b"] } := by
  refine ⟨rfl, ?_, rfl, rfl, rfl, rfl, rfl, rfl, rfl, rfl, rfl, rfl, rfl⟩
  unfold Query.filter
  simp only []
  split <;> rfl

/-! ## Helper lemmas for the create round trip (C7) -/

theorem hset_hashes_pt (s : Store) (k0 f0 v k f : String) :
    (s.hset k0 f0 v).hashes k f = if k = k0 ∧ f = f0 then some v else s.hashes k f := rfl

theorem foldl_hashes {α : Type} (f : Store → α → Store) (l : List α)
    (h : ∀ st x, (f st x).hashes = st.hashes) (s : Store) :
    (l.foldl f s).hashes = s.hashes :=
  foldl_pres f Store.hashes l (fun st x _ => h st x) s

theorem phase_unindex_hashes (ns id : String) (s : Store) :
    (phase_unindex ns id s).hashes = s.hashes := by
  unfold phase_unindex
  cases h : s.descs ns id with
  | none => rfl
  | some d =>
    cases d <;>
      simp only [] <;>
      rw [foldl_hashes (fun (st : Store) (e : String × String) =>
            st.zrem (sufKey ns e.1) (packedMember e.2 id)) _ (fun _ _ => rfl),
        foldl_hashes (fun (st : Store) (e : String × String) =>
            st.zrem (preKey ns e.1) (packedMember e.2 id)) _ (fun _ _ => rfl),
        foldl_hashes (fun (st : Store) (k2 : String) => st.zrem (idxKey ns k2) id) _
          (fun _ _ => rfl),
        foldl_hashes (fun (st : Store) (k2 : String) => st.srem (idxKey ns k2) id) _
          (fun _ _ => rfl)]

theorem phase_add_scored_hashes (ns id : String) (sc : List (String × Int)) (s : Store) :
    (phase_add_scored ns id sc s).hashes = s.hashes := by
  unfold phase_add_scored
  apply foldl_hashes
  intro st x
  rfl

theorem phase_add_pre_hashes (ns id : String) (pr : List (String × String × Int)) (s : Store) :
    (phase_add_pre ns id pr s).hashes = s.hashes := by
  unfold phase_add_pre
  apply foldl_hashes
  intro st x
  rfl

theorem phase_add_suf_hashes (ns id : String) (sf : List (String × String × Int)) (s : Store) :
    (phase_add_suf ns id sf s).hashes = s.hashes := by
  unfold phase_add_suf
  apply foldl_hashes
  intro st x
  rfl

theorem phase_unique_write_hashes_pt (ns id : String) (u : List (String × Option String))
    (K f : String) (h : ∀ x ∈ u, uidxKey ns x.1 ≠ K) (s : Store) :
    (phase_unique_write ns id u s).hashes K f = s.hashes K f := by
  unfold phase_unique_write
  refine foldl_pres _ (fun st => st.hashes K f) u ?_ s
  intro st x hx
  rcases x with ⟨a, b⟩
  cases b with
  | none => rfl
  | some v =>
    show (st.hset (uidxKey ns a) v id).hashes K f = st.hashes K f
    rw [hset_hashes_pt, if_neg (fun hh => h (a, some v) hx hh.1.symm)]

theorem phase_data_pres_field (ns id : String) (data : List (String × String)) (f : String)
    (h : ∀ x ∈ data, x.1 ≠ f) (s : Store) :
    (phase_data ns id data s).hashes (pkKey ns id) f = s.hashes (pkKey ns id) f := by
  unfold phase_data
  refine foldl_pres _ (fun st => st.hashes (pkKey ns id) f) data ?_ s
  intro st x hx
  show (st.hset (pkKey ns id) x.1 x.2).hashes (pkKey ns id) f = _
  rw [hset_hashes_pt, if_neg (fun hh => h x hx hh.2.symm)]

theorem phase_data_lookup (ns id : String) (data : List (String × String)) (f : String)
    (hnodup : (data.map Prod.fst).Nodup) :
    ∀ s : Store, s.hashes (pkKey ns id) f = none →
      (phase_data ns id data s).hashes (pkKey ns id) f = lookupA data f := by
  induction data with
  | nil =>
    intro s h0
    exact h0
  | cons kv rest ih =>
    intro s h0
    show (phase_data ns id rest (s.hset (pkKey ns id) kv.1 kv.2)).hashes (pkKey ns id) f
      = lookupA (kv :: rest) f
    rcases kv with ⟨a, v⟩
    rw [show lookupA ((a, v) :: rest) f = if a = f then some v else lookupA rest f from rfl]
    by_cases hf : a = f
    · subst hf
      have hrest : ∀ x ∈ rest, x.1 ≠ a := by
        intro x hx he
        have hmm : x.1 ∈ rest.map Prod.fst := List.mem_map_of_mem Prod.fst hx
        rw [he] at hmm
        exact (List.nodup_cons.mp hnodup).1 hmm
      rw [phase_data_pres_field ns id rest a hrest, hset_hashes_pt,
        if_pos ⟨rfl, rfl⟩, if_pos rfl]
    · rw [if_neg hf]
      refine ih (List.nodup_cons.mp hnodup).2 _ ?_
      rw [hset_hashes_pt, if_neg (fun hh => hf hh.2.symm)]
      exact h0

theorem keygenAcc_proj (c : ColSpec) (del : Bool) (nval : Option String) (p : Pending) :
    (keygenAcc c del nval p).deleted = p.deleted
    ∧ (keygenAcc c del nval p).udeleted = p.udeleted
    ∧ (keygenAcc c del nval p).data = p.data
    ∧ (keygenAcc c del nval p).uniqueM = p.uniqueM := by
  unfold keygenAcc
  repeat' split
  all_goals exact ⟨rfl, rfl, rfl, rfl⟩

/-- With an empty old map on the scripted non-delete path, the column loop
never queues attribute deletions or stale unique removals, and its effect on
`data` is exactly one `updAssoc` per non-null new value. -/
theorem colStep_empty_old (kp pk : String) (new : AttrMap) (full : Bool) (p : Pending)
    (c : ColSpec) :
    (colStep true kp pk emptyA new full false p c).deleted = p.deleted
    ∧ (colStep true kp pk emptyA new full false p c).udeleted = p.udeleted
    ∧ (colStep true kp pk emptyA new full false p c).data
      = (match new c.name with
        | some v => updAssoc p.data c.name (c.toRedis v)
        | none => p.data) := by
  unfold colStep
  cases hn : new c.name with
  | none =>
    obtain ⟨hk1, hk2, hk3, hk4⟩ := keygenAcc_proj c false none p
    by_cases hf : full = false
    · rw [if_pos ⟨rfl, hf⟩]
      exact ⟨hk1, hk2, hk3⟩
    · rw [if_neg (fun hh => hf hh.2)]
      by_cases hu : c.uniq = true
      · rw [if_pos hu]
        exact ⟨hk1, hk2, hk3⟩
      · rw [if_neg hu]
        exact ⟨hk1, hk2, hk3⟩
  | some nv =>
    obtain ⟨hk1, hk2, hk3, hk4⟩ := keygenAcc_proj c false (some nv) p
    rw [if_neg (fun hh => Option.noConfusion hh.1)]
    by_cases hu : c.uniq = true
    · rw [if_pos hu]
      exact ⟨hk1, hk2, congrArg (fun d => updAssoc d c.name (c.toRedis nv)) hk3⟩
    · rw [if_neg hu]
      exact ⟨hk1, hk2, congrArg (fun d => updAssoc d c.name (c.toRedis nv)) hk3⟩

/-- With an empty old map the composite loop's removal guard never fires (the
old tuple is all-null, or the constraint is empty and unchanged), so only the
pending unique map can change. -/
theorem cuniqueStep_empty_old (cfg : ModelCfg) (new : AttrMap) (p : Pending)
    (uniq : List String) :
    (cuniqueStep cfg emptyA new p uniq).deleted = p.deleted
    ∧ (cuniqueStep cfg emptyA new p uniq).udeleted = p.udeleted
    ∧ (cuniqueStep cfg emptyA new p uniq).data = p.data := by
  unfold cuniqueStep
  simp only []
  have hguard : ¬ (List.map emptyA uniq ≠ ndataOf cfg new uniq
      ∧ ¬ none ∈ List.map emptyA uniq) := by
    intro hc
    cases uniq with
    | nil => exact hc.1 rfl
    | cons u rest => exact hc.2 (by simp [emptyA])
  rw [if_neg hguard]
  split <;> exact ⟨rfl, rfl, rfl⟩

theorem foldl_colStep_no_del (kp pk : String) (new : AttrMap) (full : Bool)
    (cols : List ColSpec) :
    ∀ p : Pending,
      ((cols.foldl (colStep true kp pk emptyA new full false) p).deleted = p.deleted)
      ∧ ((cols.foldl (colStep true kp pk emptyA new full false) p).udeleted = p.udeleted) := by
  induction cols with
  | nil => intro p; exact ⟨rfl, rfl⟩
  | cons d rest ih =>
    intro p
    rw [List.foldl_cons]
    obtain ⟨h1, h2⟩ := ih (colStep true kp pk emptyA new full false p d)
    obtain ⟨hc1, hc2, _⟩ := colStep_empty_old kp pk new full p d
    exact ⟨h1.trans hc1, h2.trans hc2⟩

theorem foldl_cuniqueStep_empty (cfg : ModelCfg) (new : AttrMap) (l : List (List String)) :
    ∀ p : Pending,
      ((l.foldl (cuniqueStep cfg emptyA new) p).deleted = p.deleted)
      ∧ ((l.foldl (cuniqueStep cfg emptyA new) p).udeleted = p.udeleted)
      ∧ ((l.foldl (cuniqueStep cfg emptyA new) p).data = p.data) := by
  induction l with
  | nil => intro p; exact ⟨rfl, rfl, rfl⟩
  | cons u rest ih =>
    intro p
    rw [List.foldl_cons]
    obtain ⟨h1, h2, h3⟩ := ih (cuniqueStep cfg emptyA new p u)
    obtain ⟨hc1, hc2, hc3⟩ := cuniqueStep_empty_old cfg new p u
    exact ⟨h1.trans hc1, h2.trans hc2, h3.trans hc3⟩

/-- With an empty old map, `_apply_changes` queues no attribute deletions and
no stale unique removals. -/
theorem buildPending_empty_no_del (cfg : ModelCfg) (new : AttrMap) (full : Bool)
    (pk : String) :
    (buildPending true cfg emptyA new full false pk).deleted = []
    ∧ (buildPending true cfg emptyA new full false pk).udeleted = [] := by
  unfold buildPending
  simp only []
  obtain ⟨h1, h2, _⟩ := foldl_cuniqueStep_empty cfg new cfg.cunique
    (cfg.cols.foldl (colStep true cfg.keyPre pk emptyA new full false) {})
  obtain ⟨h3, h4⟩ := foldl_colStep_no_del cfg.keyPre pk new full cfg.cols {}
  exact ⟨h1.trans h3, h2.trans h4⟩

theorem colStep_data_other (kp pk : String) (new : AttrMap) (full : Bool) (p : Pending)
    (c : ColSpec) (f : String) (hf : c.name ≠ f) :
    lookupA (colStep true kp pk emptyA new full false p c).data f = lookupA p.data f := by
  rw [(colStep_empty_old kp pk new full p c).2.2]
  cases new c.name with
  | none => rfl
  | some v => exact lookupA_updAssoc_other p.data (c.toRedis v) (fun he => hf he.symm)

theorem foldl_colStep_data_other (kp pk : String) (new : AttrMap) (full : Bool)
    (cols : List ColSpec) (f : String) (h : ∀ e ∈ cols, e.name ≠ f) :
    ∀ p : Pending,
      lookupA (cols.foldl (colStep true kp pk emptyA new full false) p).data f
        = lookupA p.data f := by
  induction cols with
  | nil => intro p; rfl
  | cons d rest ih =>
    intro p
    rw [List.foldl_cons,
      ih (fun e he => h e (List.mem_cons_of_mem d he)),
      colStep_data_other kp pk new full p d f (h d (List.mem_cons_self d rest))]

theorem foldl_colStep_data_self (kp pk : String) (new : AttrMap) (full : Bool) :
    ∀ (cols : List ColSpec) (p : Pending) (c : ColSpec), c ∈ cols →
      (cols.map ColSpec.name).Nodup →
      lookupA (cols.foldl (colStep true kp pk emptyA new full false) p).data c.name
        = (match new c.name with
          | some v => some (c.toRedis v)
          | none => lookupA p.data c.name) := by
  intro cols
  induction cols with
  | nil => intro p c hc; exact absurd hc (List.not_mem_nil c)
  | cons d rest ih =>
    intro p c hc hnodup
    rw [List.foldl_cons]
    rcases List.mem_cons.mp hc with hdc | hrest
    · subst hdc
      have hnotin : ∀ e ∈ rest, e.name ≠ c.name := by
        intro e he heq
        have hmm : e.name ∈ rest.map ColSpec.name := List.mem_map_of_mem ColSpec.name he
        rw [heq] at hmm
        exact (List.nodup_cons.mp hnodup).1 hmm
      rw [foldl_colStep_data_other kp pk new full rest c.name hnotin,
        (colStep_empty_old kp pk new full p c).2.2]
      cases new c.name with
      | none => rfl
      | some v => exact lookupA_updAssoc_self p.data c.name (c.toRedis v)
    · have hdc : d.name ≠ c.name := by
        intro heq
        have hmm : c.name ∈ rest.map ColSpec.name := List.mem_map_of_mem ColSpec.name hrest
        rw [← heq] at hmm
        exact (List.nodup_cons.mp hnodup).1 hmm
      rw [ih (colStep true kp pk emptyA new full false p d) c hrest
        (List.nodup_cons.mp hnodup).2]
      cases new c.name with
      | none => exact colStep_data_other kp pk new full p d c.name hdc
      | some v => rfl

theorem buildPending_data_lookup (cfg : ModelCfg) (new : AttrMap) (full : Bool) (pk : String)
    (f : String) (hnodup : (cfg.cols.map ColSpec.name).Nodup) :
    lookupA (buildPending true cfg emptyA new full false pk).data f = encNewOf cfg new f := by
  unfold buildPending
  simp only []
  rw [(foldl_cuniqueStep_empty cfg new cfg.cunique _).2.2]
  unfold encNewOf colOf
  cases hfind : cfg.cols.find? (fun c => c.name == f) with
  | none =>
    have hno : ∀ e ∈ cfg.cols, e.name ≠ f := by
      intro e he heq
      have h2 := List.find?_eq_none.mp hfind e he
      simp [heq] at h2
    rw [foldl_colStep_data_other cfg.keyPre pk new full cfg.cols f hno]
    rfl
  | some c =>
    have hc1 : c ∈ cfg.cols := List.mem_of_find?_eq_some hfind
    have hc2 : c.name = f := by
      have h2 := List.find?_some hfind
      simpa using h2
    subst hc2
    rw [foldl_colStep_data_self cfg.keyPre pk new full cfg.cols {} c hc1 hnodup]
    cases new c.name with
    | none => rfl
    | some v => rfl

theorem lookupA_none_not_mem {α : Type} [DecidableEq α] {β : Type} {l : List (α × β)}
    {k : α} (h : lookupA l k = none) : k ∉ l.map Prod.fst := by
  induction l with
  | nil => simp
  | cons a t ih =>
    rcases a with ⟨a1, a2⟩
    rw [lookupA_cons] at h
    by_cases hk : a1 = k
    · rw [if_pos hk] at h
      exact absurd h (by simp)
    · rw [if_neg hk] at h
      simp only [List.map_cons, List.mem_cons]
      rintro (he | he)
      · exact hk he.symm
      · exact ih h he

theorem updAssoc_map_fst_eq {α : Type} [DecidableEq α] {β : Type} (l : List (α × β))
    (k : α) (v : β) :
    (l.map (fun kv => if kv.1 = k then (k, v) else kv)).map Prod.fst = l.map Prod.fst := by
  induction l with
  | nil => rfl
  | cons a t ih =>
    rcases a with ⟨a1, a2⟩
    by_cases hk : a1 = k
    · subst hk
      simp [ih]
    · simp only [List.map_cons,
        show (if (a1, a2).1 = k then (k, v) else (a1, a2)) = (a1, a2) from by simp [hk], ih]

theorem updAssoc_keysNodup {α : Type} [DecidableEq α] {β : Type} {l : List (α × β)}
    (k : α) (v : β) (h : (l.map Prod.fst).Nodup) :
    ((updAssoc l k v).map Prod.fst).Nodup := by
  unfold updAssoc
  cases hl : lookupA l k with
  | none =>
    rw [List.map_append]
    refine List.Nodup.append h (List.nodup_singleton k) ?_
    intro a ha hb
    simp only [List.map_cons, List.map_nil, List.mem_singleton] at hb
    subst hb
    exact lookupA_none_not_mem hl ha
  | some w =>
    rw [updAssoc_map_fst_eq]
    exact h

theorem foldl_colStep_keysNodup (kp pk : String) (new : AttrMap) (full : Bool)
    (cols : List ColSpec) :
    ∀ p : Pending, (p.data.map Prod.fst).Nodup →
      (((cols.foldl (colStep true kp pk emptyA new full false) p).data).map Prod.fst).Nodup := by
  induction cols with
  | nil => intro p h; exact h
  | cons d rest ih =>
    intro p h
    rw [List.foldl_cons]
    refine ih _ ?_
    rw [(colStep_empty_old kp pk new full p d).2.2]
    cases new d.name with
    | none => exact h
    | some v => exact updAssoc_keysNodup d.name (d.toRedis v) h

theorem buildPending_data_keysNodup (cfg : ModelCfg) (new : AttrMap) (full : Bool)
    (pk : String) :
    (((buildPending true cfg emptyA new full false pk).data).map Prod.fst).Nodup := by
  unfold buildPending
  simp only []
  rw [(foldl_cuniqueStep_empty cfg new cfg.cunique _).2.2]
  exact foldl_colStep_keysNodup cfg.keyPre pk new full cfg.cols {} (by simp)

theorem phase_deleted_nil (ns id : String) (s : Store) : phase_deleted ns id [] s = s := rfl

theorem phase_udelete_nil (ns id : String) (s : Store) : phase_udelete ns id [] s = s := rfl

/-- Claim C7 (confirmed).  Creating a record (empty old map) through the
scripted `_apply_changes` and then reading the primary hash
`<namespace>:<id>` yields exactly the encoded values of the new attribute
map: every non-null attribute of a declared column is present with its
`to_redis` encoding, and no other field exists.  The hypotheses ask that the
primary hash started empty, that column names are distinct, and that no
unique-hash key collides with the primary key (true for every sane naming). -/
theorem C7_create_round_trip (cfg : ModelCfg) (new : AttrMap) (pk : String) (full : Bool)
    (s : Store)
    (hpk : pkOf cfg emptyA new = some pk)
    (hnodup : (cfg.cols.map ColSpec.name).Nodup)
    (hempty : ∀ f2, s.hashes (pkKey cfg.keyPre pk) f2 = none)
    (hu : ∀ x ∈ (buildPending true cfg emptyA new full false pk).uniqueM,
      uidxKey cfg.keyPre x.1 ≠ pkKey cfg.keyPre pk)
    (hok : (apply_changes_lua cfg emptyA new full false s).isOk = true) :
    ∀ f, ((apply_changes_lua cfg emptyA new full false s).storeOr s).hashes
      (pkKey cfg.keyPre pk) f = encNewOf cfg new f := by
  intro f
  unfold apply_changes_lua at hok ⊢
  simp only [hpk] at hok ⊢
  split at hok
  case h_2 =>
    exact absurd hok (by simp [ApplyOutcome.isOk])
  case h_3 =>
    exact absurd hok (by simp [ApplyOutcome.isOk])
  case h_1 s2 n heq =>
    show s2.hashes (pkKey cfg.keyPre pk) f = encNewOf cfg new f
    unfold redis_writer_lua run_writer_lua at heq
    split at heq
    · exact absurd heq (by simp [Prod.mk.injEq])
    · injection heq with h1 h2
      rw [← h1]
      unfold lua_write_phases
      rw [phase_add_suf_hashes, phase_add_pre_hashes, phase_add_scored_hashes,
        phase_delete_record_false, phase_unindex_hashes,
        (buildPending_empty_no_del cfg new full pk).1,
        (buildPending_empty_no_del cfg new full pk).2,
        phase_deleted_nil, phase_udelete_nil,
        phase_data_lookup cfg.keyPre pk _ f (buildPending_data_keysNodup cfg new full pk) _
          (by rw [phase_unique_write_hashes_pt cfg.keyPre pk _ (pkKey cfg.keyPre pk) f hu s]
              exact hempty f),
        buildPending_data_lookup cfg new full pk f hnodup]

/-- Witness for C7: creating `{id: '1', email: 'e'}` of `cfgEmail` on the
empty store reproduces the encoded values in `m:1` (checked at the `email`
field through the theorem). -/
theorem C7_witness :
    ((apply_changes_lua cfgEmail emptyA newEmail false false Store.empty).storeOr
      Store.empty).hashes (pkKey "m" "1") "email" = encNewOf cfgEmail newEmail "email" :=
  C7_create_round_trip cfgEmail newEmail "1" false Store.empty rfl (by decide)
    (fun _ => rfl) (by decide) rfl "email"
